import Mathlib

/-!
# The BrainFuck interpreter of `src/brainfuck.cc`

A shallow embedding of the class `BrainFuck` and of its `parse` loop, followed by the
properties proved about it.

Modelling conventions.

* The heap array `stack_` (of `stacksize_` cells of type `uint8_t`) is a `List Nat`;
  `stacksize_` is its length.  Every write reduces modulo `256`.
* The pointers `current_` and `stack_top_` are kept as offsets from `stack_`:
  `stack_top_ = std::next(stack_, stacksize_)` is the offset `stacksize_`, one past the
  last cell.  Dereferencing `current_` at that offset is undefined behaviour in C++ and
  is reported as `Fault.cell_out_of_bounds`.
* `loop_mark_` (a `std::stack<uint64_t>`) is a list whose head is the top.  `top()` and
  `pop()` on an empty stack are undefined behaviour and are reported as
  `Fault.loop_mark_empty`.
* `source_index_` is a `Nat`: a `std::string` is far shorter than `2 ^ 64`, so the
  `uint64_t` counter never wraps.
* `std::cin` is the list of whitespace-delimited tokens still to be read, `std::cout` the
  list of bytes written so far.  Both are carried in the state.
* The `for` loop of `parse` need not terminate, so it is run with fuel; one unit of fuel
  pays for one evaluation of the loop condition.
-/

namespace BF

/-- Ways in which a command handler leaves the normally returning path. -/
inductive Fault where
  /-- Dereference of `current_` when it equals `stack_top_` (undefined behaviour). -/
  | cell_out_of_bounds
  /-- Call of `loop_mark_.top()` or `loop_mark_.pop()` on an empty stack (undefined behaviour). -/
  | loop_mark_empty
  /-- Exception `std::invalid_argument` thrown by `std::stoi`. -/
  | invalid_argument
  /-- Exception `std::out_of_range` thrown by `std::stoi`. -/
  | out_of_range
  deriving DecidableEq

/-- Whether a fault is a C++ exception that propagates to the caller of `parse`
(as opposed to undefined behaviour, for which the language promises nothing). -/
def Fault.is_exception : Fault → Bool
  | .invalid_argument => true
  | .out_of_range => true
  | .cell_out_of_bounds => false
  | .loop_mark_empty => false

/-- The data members of `class BrainFuck` (lines 144-156) together with the two standard
streams the handlers use. -/
structure BrainFuck where
  /-- The cells of the array `stack_`; `stacksize_` is the length of this list. -/
  stack_ : List Nat
  /-- The offset `current_ - stack_`. -/
  current_ : Nat
  /-- The loop markers, top first. -/
  loop_mark_ : List Nat
  source_index_ : Nat
  put_char_ : Nat
  should_print_stack_ : Bool
  is_first_print_stack_ : Bool
  /-- The whitespace-delimited tokens not yet read from `std::cin`. -/
  cin : List (List Char)
  /-- The bytes written to `std::cout` so far, oldest first. -/
  cout : List Nat
  deriving DecidableEq

/-- The member `stacksize_`: the number of cells of the array. -/
def BrainFuck.stacksize_ (s : BrainFuck) : Nat := s.stack_.length

/-- Lines 55-61: `reset_` zeroes the cells, puts `current_` on the first cell, empties
`loop_mark_` and sets `source_index_` to `0`. -/
def BrainFuck.reset_ (s : BrainFuck) : BrainFuck :=
  { s with
    stack_ := List.replicate s.stacksize_ 0
    current_ := 0
    loop_mark_ := []
    source_index_ := 0 }

/-- Lines 13-20: the constructor.  The array is allocated with `stacksize` cells and
`reset_` is called; the remaining members keep their default member initialisers.
`cin` is what the process will find on its standard input. -/
def BrainFuck.new (stacksize : Nat) (should_print_stack : Bool) (cin : List (List Char)) :
    BrainFuck :=
  BrainFuck.reset_
    { stack_ := List.replicate stacksize 0
      current_ := 0
      loop_mark_ := []
      source_index_ := 0
      put_char_ := 0
      should_print_stack_ := should_print_stack
      is_first_print_stack_ := true
      cin := cin
      cout := [] }

/-- Line 21: the default constructor delegates with `16` cells. -/
def BrainFuck.default (cin : List (List Char)) : BrainFuck := BrainFuck.new 16 false cin

/-- Result of a handler: the new state, or a fault together with the state in which it
occurred. -/
abbrev Step := Except (Fault × BrainFuck) BrainFuck

deriving instance DecidableEq for Except

/-- Lines 77-83: `>`.  The test is `current_ < stack_top_`, with `stack_top_` one past the
last cell. -/
def process_ref_add_ (s : BrainFuck) : Step :=
  if s.current_ < s.stacksize_ then
    .ok { s with current_ := s.current_ + 1 }
  else
    .ok { s with current_ := 0 }

/-- Lines 85-91: `<`.  At the first cell the pointer is set to `stack_top_`. -/
def process_ref_sub_ (s : BrainFuck) : Step :=
  if s.current_ = 0 then
    .ok { s with current_ := s.stacksize_ }
  else
    .ok { s with current_ := s.current_ - 1 }

/-- Line 93: `+`, that is `(*current_)++` on a `uint8_t`. -/
def process_val_add_ (s : BrainFuck) : Step :=
  match s.stack_[s.current_]? with
  | some v => .ok { s with stack_ := s.stack_.set s.current_ ((v + 1) % 256) }
  | none => .error (.cell_out_of_bounds, s)

/-- Line 95: `-`, that is `(*current_)--` on a `uint8_t`; subtracting one modulo `256`
is adding `255` modulo `256`. -/
def process_val_sub_ (s : BrainFuck) : Step :=
  match s.stack_[s.current_]? with
  | some v => .ok { s with stack_ := s.stack_.set s.current_ ((v + 255) % 256) }
  | none => .error (.cell_out_of_bounds, s)

/-- Lines 97-103: `.`.  With tracing on the byte is parked in `put_char_`, otherwise it is
written to `std::cout`. -/
def process_val_put_ (s : BrainFuck) : Step :=
  match s.stack_[s.current_]? with
  | some v =>
    if s.should_print_stack_ then
      .ok { s with put_char_ := v }
    else
      .ok { s with cout := s.cout ++ [v] }
  | none => .error (.cell_out_of_bounds, s)

/-- The characters `std::isspace` accepts in the C locale. -/
def isspace (c : Char) : Bool :=
  c.toNat = 32 || (9 ≤ c.toNat && c.toNat ≤ 13)

/-- The library function `std::stoi(str)` in base ten: leading white space is skipped, an
optional sign is read, then the longest run of decimal digits; what follows is ignored.
No digit gives `std::invalid_argument`; a value that does not fit a 32-bit `int` gives
`std::out_of_range`. -/
def stoi (str : List Char) : Except Fault Int :=
  let body := str.dropWhile isspace
  let negative := body.head? = some '-'
  let rest := if body.head? = some '-' ∨ body.head? = some '+' then body.tail else body
  let digits := rest.takeWhile Char.isDigit
  if digits = [] then
    .error .invalid_argument
  else
    let magnitude : Nat := digits.foldl (fun acc d => 10 * acc + (d.toNat - 48)) 0
    let value : Int := if negative then -(magnitude : Int) else (magnitude : Int)
    if value < -2147483648 ∨ 2147483647 < value then
      .error .out_of_range
    else
      .ok value

/-- Lines 105-111: `,`.  One token is read from `std::cin` (the string stays empty at end
of input), converted by `std::stoi`, cast to `uint8_t` and stored at `current_`. -/
def process_val_get_ (s : BrainFuck) : Step :=
  let user_input := s.cin.headD []
  let s1 := { s with cin := s.cin.tail }
  match stoi user_input with
  | .error f => .error (f, s1)
  | .ok k =>
    match s1.stack_[s1.current_]? with
    | some _ => .ok { s1 with stack_ := s1.stack_.set s1.current_ (k % 256).toNat }
    | none => .error (.cell_out_of_bounds, s1)

/-- Line 113: `[` pushes `source_index_`. -/
def process_loop_start_ (s : BrainFuck) : Step :=
  .ok { s with loop_mark_ := s.source_index_ :: s.loop_mark_ }

/-- Lines 115-121: `]`.  A nonzero cell copies the top marker into `source_index_` and
keeps it on the stack; a zero cell pops the marker. -/
def process_loop_end_ (s : BrainFuck) : Step :=
  match s.stack_[s.current_]? with
  | none => .error (.cell_out_of_bounds, s)
  | some v =>
    if v ≠ 0 then
      match s.loop_mark_ with
      | [] => .error (.loop_mark_empty, s)
      | top :: _ => .ok { s with source_index_ := top }
    else
      match s.loop_mark_ with
      | [] => .error (.loop_mark_empty, s)
      | _ :: rest => .ok { s with loop_mark_ := rest }

/-- One lower-case hexadecimal digit as an ASCII byte. -/
def hex_digit (d : Nat) : Nat := if d < 10 then 48 + d else 87 + d

/-- A cell printed with `std::hex`, `std::setfill('0')` and `std::setw(2)`. -/
def hex2 (v : Nat) : List Nat := [hex_digit (v / 16 % 16), hex_digit (v % 16)]

/-- Lines 129-139: the body of the dump loop of `print_stack_`, from index `i` on. -/
def dump_cells (current : Nat) : Nat → List Nat → List Nat
  | _, [] => []
  | i, v :: rest =>
    (if current = i then [40] else []) ++ hex2 v ++ (if current = i then [41] else [])
      ++ dump_cells current (i + 1) rest

/-- Lines 123-142: the trace printer. -/
def print_stack_ (token : Char) (s : BrainFuck) : BrainFuck :=
  { s with
    is_first_print_stack_ := false
    cout := s.cout ++ (if s.is_first_print_stack_ then [] else [10])
      ++ [91, token.toNat, 93, 32] ++ dump_cells s.current_ 0 s.stack_
      ++ [32, 32, 32, 32, s.put_char_]
    put_char_ := 0 }

/-- Lines 63-75: the table `command_map_`; `none` is `find(token) == end()`. -/
def command_map_ (token : Char) : Option (BrainFuck → Step) :=
  if token = '>' then some process_ref_add_
  else if token = '<' then some process_ref_sub_
  else if token = '+' then some process_val_add_
  else if token = '-' then some process_val_sub_
  else if token = '.' then some process_val_put_
  else if token = ',' then some process_val_get_
  else if token = '[' then some process_loop_start_
  else if token = ']' then some process_loop_end_
  else none

/-- What one evaluation of the `for` loop of `parse` leads to. -/
inductive Next where
  /-- The body ran and `source_index_++` was executed. -/
  | again (s : BrainFuck)
  /-- The loop condition was false: `parse` returns. -/
  | finished (s : BrainFuck)
  /-- The handler faulted in state `s`. -/
  | failed (f : Fault) (s : BrainFuck)
  deriving DecidableEq

/-- Lines 42-51: the loop condition, one execution of the body and the increment. -/
def parse_iter (source : List Char) (s : BrainFuck) : Next :=
  match source[s.source_index_]? with
  | none => .finished s
  | some token =>
    match command_map_ token with
    | none => .again { s with source_index_ := s.source_index_ + 1 }
    | some command =>
      match command s with
      | .error (f, s1) => .failed f s1
      | .ok s1 =>
        let s2 := if s1.should_print_stack_ then print_stack_ token s1 else s1
        .again { s2 with source_index_ := s2.source_index_ + 1 }

/-- How a call of `parse` ends. -/
inductive Outcome where
  /-- The call returned in state `s`. -/
  | returned (s : BrainFuck)
  /-- A handler faulted in state `s`. -/
  | fault (f : Fault) (s : BrainFuck)
  /-- The fuel did not suffice. -/
  | out_of_fuel
  deriving DecidableEq

/-- The `for` loop of `parse`, from the current `source_index_`. -/
def parse_loop (source : List Char) : Nat → BrainFuck → Outcome
  | 0, _ => .out_of_fuel
  | fuel + 1, s =>
    match parse_iter source s with
    | .again s1 => parse_loop source fuel s1
    | .finished s1 => .returned s1
    | .failed f s1 => .fault f s1

/-- Lines 40-52: `parse` starts the loop at `source_index_ = 0`; nothing else is reset. -/
def parse (source : List Char) (fuel : Nat) (s : BrainFuck) : Outcome :=
  parse_loop source fuel { s with source_index_ := 0 }

/-- The source indices at which the loop body is entered, in order of execution. -/
def visited (source : List Char) : Nat → BrainFuck → List Nat
  | 0, _ => []
  | fuel + 1, s =>
    match parse_iter source s with
    | .again s1 => s.source_index_ :: visited source fuel s1
    | .finished _ => []
    | .failed _ _ => [s.source_index_]

/-- `k` successive executions of one handler. -/
def times (command : BrainFuck → Step) : Nat → BrainFuck → Step
  | 0, s => .ok s
  | k + 1, s =>
    match command s with
    | .ok s1 => times command k s1
    | .error e => .error e

/-! ## Definitions used to state the claims -/

/-- The source made of `n` characters `+` followed by `[-]`. -/
def countdown (n : Nat) : List Char := List.replicate n '+' ++ ['[', '-', ']']

/-- Whether `command_map_` has a handler for the character. -/
def is_command (c : Char) : Bool := (command_map_ c).isSome

/-- The source with every character that has no handler removed. -/
def strip (source : List Char) : List Char := source.filter is_command

/-- The index in `strip source` that corresponds to index `i` of `source`: the number of
command characters before `i`. -/
def new_index (source : List Char) (i : Nat) : Nat := ((source.take i).filter is_command).length

/-- The state with program counter and loop stack replaced. -/
def BrainFuck.relocate (s : BrainFuck) (pc : Nat) (lm : List Nat) : BrainFuck :=
  { s with source_index_ := pc, loop_mark_ := lm }

/-- Removal of the innermost open bracket; `none` when no bracket is open. -/
def pop_mark : List Nat → Option (List Nat)
  | [] => none
  | _ :: rest => some rest

/-- The syntactic bracket structure of a source: the indices of the `[` that are open (not
yet closed by a `]`) just before index `i`, innermost first; `none` when some `]` before
`i` has no `[` to close. -/
def open_marks (source : List Char) : Nat → Option (List Nat)
  | 0 => some []
  | i + 1 =>
    match open_marks source i with
    | none => none
    | some st =>
      match source[i]? with
      | none => some st
      | some c =>
        if c = '[' then some (i :: st)
        else if c = ']' then pop_mark st
        else some st

/-- Every `]` of the source closes an earlier `[` of the same source. -/
def closes_matched (source : List Char) : Prop :=
  (open_marks source source.length).isSome = true

/-- Every bracket of the source is matched within the source. -/
def brackets_matched (source : List Char) : Prop :=
  open_marks source source.length = some []

instance (source : List Char) : Decidable (closes_matched source) := by
  unfold closes_matched; infer_instance

instance (source : List Char) : Decidable (brackets_matched source) := by
  unfold brackets_matched; infer_instance

/-- Two states agree on everything but the program counter and the loop stack: tape,
cursor, both streams and the trace printer's members. -/
def same_effect (a b : BrainFuck) : Prop :=
  a.stack_ = b.stack_ ∧ a.current_ = b.current_ ∧ a.cout = b.cout ∧ a.cin = b.cin ∧
  a.put_char_ = b.put_char_ ∧ a.should_print_stack_ = b.should_print_stack_ ∧
  a.is_first_print_stack_ = b.is_first_print_stack_

/-- Two outcomes of `parse` are of the same kind (both return, both fault in the same way,
or both lack fuel) and their states agree on everything but program counter and loop
stack. -/
def Outcome.same_effect : Outcome → Outcome → Prop
  | .returned a, .returned b => BF.same_effect a b
  | .fault f a, .fault g b => f = g ∧ BF.same_effect a b
  | .out_of_fuel, .out_of_fuel => True
  | _, _ => False

/-! ## Handlers that neither read nor write program counter and loop stack -/

/-- The image of a handler's result under a map of states. -/
def map_step (g : BrainFuck → BrainFuck) : Step → Step
  | .ok s => .ok (g s)
  | .error (f, s) => .error (f, g s)

/-- A handler that commutes with relocation and leaves program counter and loop stack
alone. -/
def Plain (h : BrainFuck → Step) : Prop :=
  (∀ s pc lm, h (s.relocate pc lm) = map_step (fun x => x.relocate pc lm) (h s)) ∧
  (∀ s s1, h s = .ok s1 →
    s1.source_index_ = s.source_index_ ∧ s1.loop_mark_ = s.loop_mark_) ∧
  (∀ s f s1, h s = .error (f, s1) →
    s1.source_index_ = s.source_index_ ∧ s1.loop_mark_ = s.loop_mark_)

/-- The stack `st` is a chain of open brackets of `source`: every entry is the index of a
`[`, and the stack from that entry down is what `open_marks` gives just after it. -/
def Chain (source : List Char) : List Nat → Prop
  | [] => True
  | p :: t => source[p]? = some '[' ∧ open_marks source (p + 1) = some (p :: t) ∧ Chain source t

/-- The simulation between a run of `inner` (state `a`, loop stack `t ++ L1`) and a run of
a source that contains `inner` after `d` other characters (state `b`, loop stack
`t` shifted by `d`, on top of `L2`); `t` is the syntactic bracket stack of `inner` at the
program counter of `a`. -/
def Sim (inner : List Char) (d : Nat) (L1 L2 : List Nat) (a b : BrainFuck) : Prop :=
  a.source_index_ ≤ inner.length ∧
  ∃ t, open_marks inner a.source_index_ = some t ∧ a.loop_mark_ = t ++ L1 ∧
    b = a.relocate (a.source_index_ + d) (t.map (fun p => p + d) ++ L2)

/-- What `parse` does after a handler returned: the optional trace, then the increment of
`source_index_`. -/
def trace_and_advance (token : Char) (s1 : BrainFuck) : BrainFuck :=
  { (if s1.should_print_stack_ then print_stack_ token s1 else s1) with
    source_index_ := s1.source_index_ + 1 }

/-- The simulation between a run of `source` (state `a`) and a run of `strip source`
(state `b`): program counter and loop markers of `b` are those of `a` renumbered by
`new_index source`; every marker of `a` is the index of a `[`. -/
def Strip (source : List Char) (a b : BrainFuck) : Prop :=
  a.source_index_ ≤ source.length ∧
  (∀ p ∈ a.loop_mark_, source[p]? = some '[') ∧
  b = a.relocate (new_index source a.source_index_) (a.loop_mark_.map (new_index source))

/-! ## Definitions for reachable states and the bracket invariant -/

/-- The state at the start of the `k`-th evaluation of the loop of `parse` (counting from
0), when the loop gets that far. -/
def parse_state (source : List Char) : Nat → BrainFuck → Option BrainFuck
  | 0, s => some s
  | k + 1, s =>
    match parse_iter source s with
    | .again s1 => parse_state source k s1
    | .finished _ => none
    | .failed _ _ => none

/-- The states an interpreter can be in: the constructor makes one, a call of `parse`
sets `source_index_` to 0, and every evaluation of the loop of `parse` leads to another
(also when the handler throws and the caller keeps the instance). -/
inductive Reachable : BrainFuck → Prop
  | fresh (stacksize : Nat) (should_print_stack : Bool) (cin : List (List Char)) :
      Reachable (BrainFuck.new stacksize should_print_stack cin)
  | enter (s : BrainFuck) : Reachable s → Reachable { s with source_index_ := 0 }
  | again (source : List Char) (s s1 : BrainFuck) :
      Reachable s → parse_iter source s = .again s1 → Reachable s1
  | failed (source : List Char) (s s1 : BrainFuck) (f : Fault) :
      Reachable s → parse_iter source s = .failed f s1 → Reachable s1

/-- The `[` that syntactically matches a `]` at index `j`: the innermost bracket open
just before `j`. -/
def matching_open (source : List Char) (j : Nat) : Option Nat :=
  (open_marks source j).bind List.head?

/-- Two states agree on the engine state: tape, cursor, loop stack, program counter and
the input still to be read.  The trace setting, `put_char_`, `is_first_print_stack_`
and the output are left out. -/
def same_core (a b : BrainFuck) : Prop :=
  a.stack_ = b.stack_ ∧ a.current_ = b.current_ ∧ a.loop_mark_ = b.loop_mark_ ∧
  a.source_index_ = b.source_index_ ∧ a.cin = b.cin

/-- Two outcomes of `parse` are of the same kind and agree on the engine state. -/
def Outcome.same_core : Outcome → Outcome → Prop
  | .returned a, .returned b => BF.same_core a b
  | .fault f a, .fault g b => f = g ∧ BF.same_core a b
  | .out_of_fuel, .out_of_fuel => True
  | _, _ => False

/-! ## Definitions for the input of `,` -/

/-- The decimal digits of `n`, most significant first; `fuel` bounds the number of
digits. -/
def decimal_digits : Nat → Nat → List Char
  | 0, _ => []
  | fuel + 1, n =>
    if n < 10 then [Char.ofNat (48 + n)]
    else decimal_digits fuel (n / 10) ++ [Char.ofNat (48 + n % 10)]

/-- The usual decimal numeral of a natural number (`0` is written `0`). -/
def decimal_nat (n : Nat) : List Char := decimal_digits (n + 1) n

/-- The usual decimal numeral of an integer: a minus sign for a negative number, then
the digits of its absolute value. -/
def decimal (k : Int) : List Char :=
  if k < 0 then '-' :: decimal_nat k.natAbs else decimal_nat k.natAbs

/-- The value `std::stoi` computes from a run of decimal digits. -/
def digits_value (digits : List Char) : Nat :=
  digits.foldl (fun acc d => 10 * acc + (d.toNat - 48)) 0

/-- The token begins, after optional white space and an optional sign, with a decimal
digit: the shape of input from which a numeral can be read. -/
def starts_with_numeral (token : List Char) : Bool :=
  match token.dropWhile isspace with
  | [] => false
  | c :: rest =>
    if c = '-' ∨ c = '+' then
      match rest with
      | [] => false
      | d :: _ => d.isDigit
    else c.isDigit

/-- The token consists of white space, an optional sign, a nonempty run of decimal digits
and a rest that does not begin with a digit, and `k` is the integer that the sign and the
digits denote: the token begins with the numeral of `k`. -/
def leading_numeral_is (token : List Char) (k : Int) : Prop :=
  ∃ ws sign ds junk, token = ws ++ (sign ++ (ds ++ junk)) ∧
    (∀ c ∈ ws, isspace c = true) ∧
    ((sign = [] ∧ k = (digits_value ds : Int)) ∨ (sign = ['+'] ∧ k = (digits_value ds : Int)) ∨
      (sign = ['-'] ∧ k = -(digits_value ds : Int))) ∧
    ds ≠ [] ∧ (∀ c ∈ ds, c.isDigit = true) ∧
    (∀ c rest, junk = c :: rest → c.isDigit = false)

/-! ## The command line (lines 159-205) -/

/-- The members of `struct Params`. -/
structure Params where
  stacksize : Nat
  source_file : List Char
  use_cli : Bool
  should_print_stack : Bool
  deriving DecidableEq

/-- The default member initialisers of `Params` (lines 160-163). -/
def Params.initial : Params :=
  { stacksize := 16, source_file := [], use_cli := false, should_print_stack := false }

/-- The library function `std::stoull(str)` in base ten: leading white space is skipped,
an optional sign is read, then the longest run of decimal digits.  No digit gives
`std::invalid_argument`, a magnitude above `2 ^ 64 - 1` gives `std::out_of_range`, and a
minus sign negates the value in 64-bit unsigned arithmetic. -/
def stoull (str : List Char) : Except Fault Nat :=
  let body := str.dropWhile isspace
  let negative := body.head? = some '-'
  let rest := if body.head? = some '-' ∨ body.head? = some '+' then body.tail else body
  let digits := rest.takeWhile Char.isDigit
  if digits = [] then
    .error .invalid_argument
  else
    let magnitude : Nat := digits.foldl (fun acc d => 10 * acc + (d.toNat - 48)) 0
    if 18446744073709551615 < magnitude then
      .error .out_of_range
    else if negative then
      .ok ((18446744073709551616 - magnitude) % 18446744073709551616)
    else
      .ok magnitude

/-- The text written by the `-h` branch (lines 190-195); `std::endl` is a line feed. -/
def usage (argv0 : List Char) : List Char :=
  "Usage: ".toList ++ argv0 ++ " [options]".toList ++ [Char.ofNat 10]
    ++ "Options:".toList ++ [Char.ofNat 10]
    ++ "  -s --stack <size> set stack size".toList ++ [Char.ofNat 10]
    ++ "  -f --file <path> set source file".toList ++ [Char.ofNat 10]
    ++ "  -c --cli use command line mode".toList ++ [Char.ofNat 10]
    ++ "  -h --help show help".toList ++ [Char.ofNat 10]

/-- How `parse_params` ends. -/
inductive ParamsOutcome where
  /-- The function returned the parameters. -/
  | returned (params : Params)
  /-- The call `exit(status)` was made after `out` had been written to `std::cout`. -/
  | exited (status : Nat) (out : List Char)
  /-- The call of `std::stoull` threw; nothing catches the exception. -/
  | thrown (f : Fault)
  /-- The element `argv[argc]`, a null pointer, was used as a string (undefined
  behaviour). -/
  | undefined
  deriving DecidableEq

/-- Lines 174-202: the loop of `parse_params` from index `i`, with `args` the arguments
`argv[i], ..., argv[argc - 1]`. -/
def parse_params_from (argv0 : List Char) : Nat → List (List Char) → Params → ParamsOutcome
  | _, [], params => .returned params
  | i, arg :: rest, params =>
    if arg = "-s".toList ∨ arg = "--stack".toList then
      match rest with
      | [] => .undefined
      | value :: rest1 =>
        match stoull value with
        | .error f => .thrown f
        | .ok n => parse_params_from argv0 (i + 2) rest1 { params with stacksize := n }
    else if arg = "-f".toList ∨ arg = "--file".toList then
      match rest with
      | [] => .undefined
      | value :: rest1 =>
        parse_params_from argv0 (i + 2) rest1 { params with source_file := value }
    else if arg = "-c".toList ∨ arg = "--cli".toList then
      parse_params_from argv0 (i + 1) rest { params with use_cli := true }
    else if arg = "-d".toList ∨ arg = "--debug".toList then
      parse_params_from argv0 (i + 1) rest
        { params with use_cli := true, should_print_stack := true }
    else if arg = "-h".toList ∨ arg = "--help".toList then
      .exited 0 (usage argv0)
    else if i = 1 then
      parse_params_from argv0 (i + 1) rest { params with source_file := arg }
    else
      parse_params_from argv0 (i + 1) rest params

/-- Lines 166-205: `parse_params(argc, argv)` with `argv = argv0 :: args`. -/
def parse_params (argv0 : List Char) (args : List (List Char)) : ParamsOutcome :=
  parse_params_from argv0 1 args Params.initial

/-- The argument is `-h` or `--help`. -/
def is_help (arg : List Char) : Prop := arg = "-h".toList ∨ arg = "--help".toList

instance (arg : List Char) : Decidable (is_help arg) := by
  unfold is_help; infer_instance

/-- The simulation between a run of `source` (state `a`) and a run of `strip source`
(state `b`) over leftover loop markers `L`: the markers `t` pushed by this run are the
syntactic bracket stack at the program counter of `a` and sit on top of `L`; program
counter and own markers of `b` are those of `a` renumbered by `new_index source`, the
leftover markers are the same. -/
def StripOver (source : List Char) (L : List Nat) (a b : BrainFuck) : Prop :=
  a.source_index_ ≤ source.length ∧
  ∃ t, open_marks source a.source_index_ = some t ∧ a.loop_mark_ = t ++ L ∧
    b = a.relocate (new_index source a.source_index_) (t.map (new_index source) ++ L)

/-- One loop evaluation on `source` in state `a` against `target` in state `b`, for a
relation `R` between the states: both are at the end, or `source` skips a character while
`target` waits, or both dispatch a command, or both fault in the same way. -/
def StutterStep (source target : List Char) (R : BrainFuck → BrainFuck → Prop)
    (a b : BrainFuck) : Prop :=
  (parse_iter source a = .finished a ∧ parse_iter target b = .finished b) ∨
  (∃ a1, parse_iter source a = .again a1 ∧ R a1 b ∧
    a.source_index_ < source.length ∧ a1.source_index_ = a.source_index_ + 1) ∨
  (∃ a1 b1, parse_iter source a = .again a1 ∧ parse_iter target b = .again b1 ∧ R a1 b1) ∨
  (∃ f a1 b1, parse_iter source a = .failed f a1 ∧ parse_iter target b = .failed f b1 ∧
    R a1 b1)

/-! ## Elementary facts about cells -/

theorem set_self_of_getElem? {l : List Nat} {i v : Nat} (h : l[i]? = some v) :
    l.set i v = l := by
  induction l generalizing i with
  | nil => rfl
  | cons a t ih =>
    cases i with
    | zero =>
      simp only [List.getElem?_cons_zero, Option.some.injEq] at h
      simp [h]
    | succ j =>
      simp only [List.getElem?_cons_succ] at h
      simp [ih h]

theorem lt_length_of_getElem? {l : List Nat} {i v : Nat} (h : l[i]? = some v) :
    i < l.length := by
  rcases List.getElem?_eq_some.mp h with ⟨hlt, _⟩
  exact hlt

theorem times_val_add (k : Nat) : ∀ (s : BrainFuck) (v : Nat),
    s.stack_[s.current_]? = some v →
    times process_val_add_ (k + 1) s
      = .ok { s with stack_ := s.stack_.set s.current_ ((v + (k + 1)) % 256) } := by
  induction k with
  | zero =>
    intro s v h
    simp [times, process_val_add_, h]
  | succ k ih =>
    intro s v h
    have hlt := lt_length_of_getElem? h
    have h1 : ({ s with stack_ := s.stack_.set s.current_ ((v + 1) % 256) } :
        BrainFuck).stack_[s.current_]? = some ((v + 1) % 256) := by
      simp [List.getElem?_set_self hlt]
    have := ih { s with stack_ := s.stack_.set s.current_ ((v + 1) % 256) } ((v + 1) % 256) h1
    rw [times]
    simp only [process_val_add_, h]
    rw [this]
    simp only [List.set_set]
    have e : ((v + 1) % 256 + (k + 1)) % 256 = (v + (k + 1 + 1)) % 256 := by omega
    rw [e]

theorem times_val_sub (k : Nat) : ∀ (s : BrainFuck) (v : Nat),
    s.stack_[s.current_]? = some v →
    times process_val_sub_ (k + 1) s
      = .ok { s with stack_ := s.stack_.set s.current_ ((v + 255 * (k + 1)) % 256) } := by
  induction k with
  | zero =>
    intro s v h
    simp [times, process_val_sub_, h]
  | succ k ih =>
    intro s v h
    have hlt := lt_length_of_getElem? h
    have h1 : ({ s with stack_ := s.stack_.set s.current_ ((v + 255) % 256) } :
        BrainFuck).stack_[s.current_]? = some ((v + 255) % 256) := by
      simp [List.getElem?_set_self hlt]
    have := ih { s with stack_ := s.stack_.set s.current_ ((v + 255) % 256) }
      ((v + 255) % 256) h1
    rw [times]
    simp only [process_val_sub_, h]
    rw [this]
    simp only [List.set_set]
    have e : ((v + 255) % 256 + 255 * (k + 1)) % 256 = (v + 255 * (k + 1 + 1)) % 256 := by
      omega
    rw [e]

/-! ## The claims -/

/-- C5: for a state whose cursor is on a cell holding `v < 256`, 256 executions of `+`
give back the very same state, and so do 256 executions of `-`; one `+` stores
`(v + 1) mod 256` and one `-` stores `(v - 1) mod 256` in that cell and changes nothing
else (cursor, other cells, loop stack, streams); in particular `255 + 1` is `0` and
`0 - 1` is `255`. -/
theorem C5_cell_wraparound (s : BrainFuck) (v : Nat) (hv : v < 256)
    (hcell : s.stack_[s.current_]? = some v) :
    times process_val_add_ 256 s = .ok s ∧
    times process_val_sub_ 256 s = .ok s ∧
    process_val_add_ s = .ok { s with stack_ := s.stack_.set s.current_ ((v + 1) % 256) } ∧
    process_val_sub_ s
      = .ok { s with stack_ := s.stack_.set s.current_ (((v : Int) - 1) % 256).toNat } ∧
    (v = 255 → (v + 1) % 256 = 0) ∧ (v = 0 → (((v : Int) - 1) % 256).toNat = 255) := by
  refine ⟨?_, ?_, ?_, ?_, ?_, ?_⟩
  · rw [times_val_add 255 s v hcell]
    have e : (v + (255 + 1)) % 256 = v := by omega
    rw [e, set_self_of_getElem? hcell]
  · rw [times_val_sub 255 s v hcell]
    have e : (v + 255 * (255 + 1)) % 256 = v := by omega
    rw [e, set_self_of_getElem? hcell]
  · simp [process_val_add_, hcell]
  · have e : (((v : Int) - 1) % 256).toNat = (v + 255) % 256 := by omega
    simp [process_val_sub_, hcell, e]
  · intro h; subst h; rfl
  · intro h; subst h; rfl

/-- Witness of C5 on the one-cell interpreter just constructed (`v = 0`). -/
theorem C5_cell_wraparound_witness :
    (0 : Nat) < 256 ∧
    (BrainFuck.new 1 false []).stack_[(BrainFuck.new 1 false []).current_]? = some 0 ∧
    times process_val_add_ 256 (BrainFuck.new 1 false []) = .ok (BrainFuck.new 1 false []) :=
  ⟨by decide, by decide,
    (C5_cell_wraparound (BrainFuck.new 1 false []) 0 (by decide) (by decide)).1⟩

/-- C2: evaluation at the failing input.  From the default interpreter (16 cells, cursor
on cell 0) sixteen `>` leave the cursor at offset 16, one past the last cell, and only
the seventeenth brings it back to 0; sixteen `<` leave it at offset 1. -/
theorem C2_sixteen_moves_do_not_return :
    (times process_ref_add_ 16 (BrainFuck.default [])).map BrainFuck.current_ = .ok 16 ∧
    (times process_ref_add_ 17 (BrainFuck.default [])).map BrainFuck.current_ = .ok 0 ∧
    (times process_ref_sub_ 16 (BrainFuck.default [])).map BrainFuck.current_ = .ok 1 ∧
    (times process_ref_sub_ 17 (BrainFuck.default [])).map BrainFuck.current_ = .ok 0 := by
  decide

/-- C3: evaluation at the failing input.  On a fresh one-cell interpreter `parse(">")`
returns with the cursor at offset 1, which is not an index of the tape, and in
`parse(">+")` the `+` dereferences that position. -/
theorem C3_cursor_leaves_tape :
    parse ['>'] 2 (BrainFuck.new 1 false [])
      = .returned { BrainFuck.new 1 false [] with current_ := 1, source_index_ := 1 } ∧
    ¬ (1 < (BrainFuck.new 1 false []).stacksize_) ∧
    parse ['>', '+'] 3 (BrainFuck.new 1 false [])
      = .fault .cell_out_of_bounds
          { BrainFuck.new 1 false [] with current_ := 1, source_index_ := 1 } := by
  decide

/-- C4: evaluation at the failing input.  With 16 cells, `>` at index 15 sets the cursor
to 16 (not to `(15 + 1) mod 16 = 0`) and `<` at index 0 sets it to 16 (not to
`(0 - 1 + 16) mod 16 = 15`). -/
theorem C4_wrap_is_one_past_the_end :
    process_ref_add_ { BrainFuck.default [] with current_ := 15 }
      = .ok { BrainFuck.default [] with current_ := 16 } ∧
    process_ref_sub_ (BrainFuck.default [])
      = .ok { BrainFuck.default [] with current_ := 16 } := by
  decide

/-- C7, as stated, fails when tracing is on: with 65 at the cursor the handler of `.`
writes no byte at all (it stores 65 in `put_char_`), and the whole dispatch of `.` by
`parse`, trace printer included, writes the thirteen bytes `[.] (41)    A`. -/
theorem C7_counterexample :
    process_val_put_ { BrainFuck.new 1 true [] with stack_ := [65] }
      = .ok { BrainFuck.new 1 true [] with stack_ := [65], put_char_ := 65 } ∧
    ({ BrainFuck.new 1 true [] with stack_ := [65], put_char_ := 65 } : BrainFuck).cout = [] ∧
    parse ['.'] 2 { BrainFuck.new 1 true [] with stack_ := [65] }
      = .returned { BrainFuck.new 1 true [] with
          stack_ := [65], source_index_ := 1, is_first_print_stack_ := false,
          cout := [91, 46, 93, 32, 40, 52, 49, 41, 32, 32, 32, 32, 65] } := by
  decide

/-- C7, amended: in a state with `v` at the cursor the handler of `.` returns normally and
leaves tape, cursor and loop stack unchanged.  With tracing off it appends exactly the one
byte `v` to the output.  With tracing on it writes nothing and stores `v` in `put_char_`,
and the trace printer that `parse` calls next ends its line with the byte `v`. -/
theorem C7_put_emits_cell (s : BrainFuck) (v : Nat) (hcell : s.stack_[s.current_]? = some v) :
    ∃ s1, process_val_put_ s = .ok s1 ∧
      s1.stack_ = s.stack_ ∧ s1.current_ = s.current_ ∧ s1.loop_mark_ = s.loop_mark_ ∧
      (s.should_print_stack_ = false → s1.cout = s.cout ++ [v]) ∧
      (s.should_print_stack_ = true → s1.cout = s.cout ∧ s1.put_char_ = v ∧
        ∃ line, (print_stack_ '.' s1).cout = s.cout ++ line ++ [v]) := by
  cases hd : s.should_print_stack_ with
  | false =>
    refine ⟨{ s with cout := s.cout ++ [v] }, ?_, rfl, rfl, rfl, ?_, ?_⟩
    · simp [process_val_put_, hcell, hd]
    · intro _; rfl
    · intro h; cases h
  | true =>
    refine ⟨{ s with put_char_ := v }, ?_, rfl, rfl, rfl, ?_, ?_⟩
    · simp [process_val_put_, hcell, hd]
    · intro h; cases h
    · intro _
      refine ⟨rfl, rfl, (if s.is_first_print_stack_ then [] else [10])
        ++ [91, 46, 93, 32] ++ dump_cells s.current_ 0 s.stack_ ++ [32, 32, 32, 32], ?_⟩
      simp [print_stack_]

/-- Witness of C7 (amended): the byte 65 on a one-cell tape, tracing off. -/
theorem C7_put_emits_cell_witness :
    ({ BrainFuck.new 1 false [] with stack_ := [65] } : BrainFuck).stack_[
        ({ BrainFuck.new 1 false [] with stack_ := [65] } : BrainFuck).current_]? = some 65 ∧
    ∃ s1, process_val_put_ { BrainFuck.new 1 false [] with stack_ := [65] } = .ok s1 ∧
      s1.stack_ = [65] ∧ s1.current_ = 0 ∧ s1.loop_mark_ = [] ∧ s1.cout = [65] := by
  refine ⟨by decide, ?_⟩
  obtain ⟨s1, h1, h2, h3, h4, h5, _⟩ :=
    C7_put_emits_cell { BrainFuck.new 1 false [] with stack_ := [65] } 65 (by decide)
  exact ⟨s1, h1, h2, h3, h4, h5 rfl⟩

/-- C8: evaluation at the failing input.  On a fresh interpreter `parse("]")` calls
`loop_mark_.pop()` and `parse("+]")` calls `loop_mark_.top()` on the empty stack; this is
undefined behaviour, not an exception raised to the caller. -/
theorem C8_unmatched_close_is_undefined :
    parse [']'] 1 (BrainFuck.default []) = .fault .loop_mark_empty (BrainFuck.default []) ∧
    parse ['+', ']'] 2 (BrainFuck.default [])
      = .fault .loop_mark_empty
          { BrainFuck.default [] with
            stack_ := 1 :: List.replicate 15 0, source_index_ := 1 } ∧
    Fault.is_exception .loop_mark_empty = false := by
  decide

/-! ## The loop of `parse`, one evaluation at a time -/

theorem parse_loop_again {source : List Char} {s s1 : BrainFuck}
    (h : parse_iter source s = .again s1) (fuel : Nat) :
    parse_loop source (fuel + 1) s = parse_loop source fuel s1 := by
  simp [parse_loop, h]

theorem parse_loop_finished {source : List Char} {s s1 : BrainFuck}
    (h : parse_iter source s = .finished s1) (fuel : Nat) :
    parse_loop source (fuel + 1) s = .returned s1 := by
  simp [parse_loop, h]

theorem parse_loop_failed {source : List Char} {s s1 : BrainFuck} {f : Fault}
    (h : parse_iter source s = .failed f s1) (fuel : Nat) :
    parse_loop source (fuel + 1) s = .fault f s1 := by
  simp [parse_loop, h]

theorem visited_again {source : List Char} {s s1 : BrainFuck}
    (h : parse_iter source s = .again s1) (fuel : Nat) :
    visited source (fuel + 1) s = s.source_index_ :: visited source fuel s1 := by
  simp [visited, h]

theorem visited_finished {source : List Char} {s s1 : BrainFuck}
    (h : parse_iter source s = .finished s1) (fuel : Nat) :
    visited source (fuel + 1) s = [] := by
  simp [visited, h]

/-- More fuel does not change the outcome of a run that did not run out of fuel. -/
theorem parse_loop_mono (source : List Char) (k : Nat) :
    ∀ (fuel : Nat) (s : BrainFuck), parse_loop source fuel s ≠ .out_of_fuel →
      parse_loop source (fuel + k) s = parse_loop source fuel s := by
  intro fuel
  induction fuel with
  | zero => intro s h; exact absurd rfl h
  | succ fuel ih =>
    intro s h
    have e : fuel + 1 + k = (fuel + k) + 1 := by omega
    rw [e]
    cases hi : parse_iter source s with
    | again s1 =>
      rw [parse_loop_again hi fuel] at h
      rw [parse_loop_again hi (fuel + k), parse_loop_again hi fuel]
      exact ih s1 h
    | finished s1 => rw [parse_loop_finished hi (fuel + k), parse_loop_finished hi fuel]
    | failed f s1 => rw [parse_loop_failed hi (fuel + k), parse_loop_failed hi fuel]

/-- A character without handler is skipped. -/
theorem parse_iter_skip {source : List Char} {s : BrainFuck} {token : Char}
    (ht : source[s.source_index_]? = some token) (hm : command_map_ token = none) :
    parse_iter source s = .again { s with source_index_ := s.source_index_ + 1 } := by
  simp [parse_iter, ht, hm]

/-- A handler that returns: the trace printer may run, then `source_index_` is advanced. -/
theorem parse_iter_ok {source : List Char} {s s1 : BrainFuck} {token : Char}
    {command : BrainFuck → Step}
    (ht : source[s.source_index_]? = some token) (hm : command_map_ token = some command)
    (hs : command s = .ok s1) :
    parse_iter source s
      = .again { (if s1.should_print_stack_ then print_stack_ token s1 else s1) with
          source_index_ := s1.source_index_ + 1 } := by
  simp only [parse_iter, ht, hm, hs]
  cases s1.should_print_stack_ <;> simp [print_stack_]

/-- A handler that faults ends the loop. -/
theorem parse_iter_error {source : List Char} {s s1 : BrainFuck} {token : Char}
    {command : BrainFuck → Step} {f : Fault}
    (ht : source[s.source_index_]? = some token) (hm : command_map_ token = some command)
    (hs : command s = .error (f, s1)) :
    parse_iter source s = .failed f s1 := by
  simp [parse_iter, ht, hm, hs]

/-- The end of the source ends the loop. -/
theorem parse_iter_end {source : List Char} {s : BrainFuck}
    (ht : source[s.source_index_]? = none) :
    parse_iter source s = .finished s := by
  simp [parse_iter, ht]

theorem command_map_plus : command_map_ '+' = some process_val_add_ := by
  simp [command_map_]

theorem command_map_minus : command_map_ '-' = some process_val_sub_ := by
  simp [command_map_]

theorem command_map_open : command_map_ '[' = some process_loop_start_ := by
  simp [command_map_]

theorem command_map_close : command_map_ ']' = some process_loop_end_ := by
  simp [command_map_]

/-- The effect of a returning handler on tape, cursor, loop stack and program counter:
the trace printer touches none of them. -/
theorem parse_iter_ok_core {source : List Char} {s s1 : BrainFuck} {token : Char}
    {command : BrainFuck → Step}
    (ht : source[s.source_index_]? = some token) (hm : command_map_ token = some command)
    (hs : command s = .ok s1) :
    ∃ s2, parse_iter source s = .again s2 ∧ s2.stack_ = s1.stack_ ∧
      s2.current_ = s1.current_ ∧ s2.loop_mark_ = s1.loop_mark_ ∧
      s2.source_index_ = s1.source_index_ + 1 := by
  refine ⟨_, parse_iter_ok ht hm hs, ?_, ?_, ?_, ?_⟩ <;>
    cases s1.should_print_stack_ <;> simp [print_stack_]

/-! ## C1: the countdown loop -/

theorem countdown_plus {n i : Nat} (h : i < n) : (countdown n)[i]? = some '+' := by
  unfold countdown
  rw [List.getElem?_append_left (by simpa using h)]
  simp [List.getElem?_replicate, h]

theorem countdown_tail (n j : Nat) : (countdown n)[n + j]? = ['[', '-', ']'][j]? := by
  unfold countdown
  rw [List.getElem?_append_right (by simp)]
  simp

/-- A run of `k` characters `+` adds `k` to the cell at the cursor. -/
theorem run_pluses (source : List Char) (k : Nat) : ∀ (s : BrainFuck) (v : Nat),
    (∀ i, i < k → source[s.source_index_ + i]? = some '+') →
    s.stack_[s.current_]? = some v → v + k < 256 →
    ∃ s1 pre, (∀ f, parse_loop source (k + f) s = parse_loop source f s1 ∧
        visited source (k + f) s = pre ++ visited source f s1) ∧
      (∀ x ∈ pre, x < s.source_index_ + k) ∧
      s1.stack_ = s.stack_.set s.current_ (v + k) ∧ s1.current_ = s.current_ ∧
      s1.loop_mark_ = s.loop_mark_ ∧ s1.source_index_ = s.source_index_ + k := by
  induction k with
  | zero =>
    intro s v _ hcell _
    refine ⟨s, [], ?_, ?_, ?_, rfl, rfl, rfl⟩
    · intro f; simp
    · intro x hx; cases hx
    · simp [set_self_of_getElem? hcell]
  | succ k ih =>
    intro s v hsrc hcell hv
    have hlt := lt_length_of_getElem? hcell
    have h0 : source[s.source_index_]? = some '+' := by simpa using hsrc 0 (by omega)
    have hadd : process_val_add_ s
        = .ok { s with stack_ := s.stack_.set s.current_ ((v + 1) % 256) } := by
      simp [process_val_add_, hcell]
    obtain ⟨s2, hit, hst, hcur, hlm, hpc⟩ := parse_iter_ok_core h0 command_map_plus hadd
    simp only at hst hcur hlm hpc
    have e1 : (v + 1) % 256 = v + 1 := by omega
    rw [e1] at hst
    have hcell2 : s2.stack_[s2.current_]? = some (v + 1) := by
      rw [hst, hcur]; simp [List.getElem?_set_self hlt]
    have hsrc2 : ∀ i, i < k → source[s2.source_index_ + i]? = some '+' := by
      intro i hi
      have := hsrc (i + 1) (by omega)
      rw [hpc]
      have e : s.source_index_ + 1 + i = s.source_index_ + (i + 1) := by omega
      rw [e]; exact this
    obtain ⟨s3, pre, hrun, hpre, hst3, hcur3, hlm3, hpc3⟩ :=
      ih s2 (v + 1) hsrc2 hcell2 (by omega)
    refine ⟨s3, s.source_index_ :: pre, ?_, ?_, ?_, ?_, ?_, ?_⟩
    · intro f
      have e : k + 1 + f = (k + f) + 1 := by omega
      rw [e, parse_loop_again hit, visited_again hit, (hrun f).1, (hrun f).2]
      simp
    · intro x hx
      rcases List.mem_cons.mp hx with hx | hx
      · omega
      · have := hpre x hx; omega
    · rw [hst3, hst, hcur, List.set_set]
      have e : v + 1 + k = v + (k + 1) := by omega
      rw [e]
    · rw [hcur3, hcur]
    · rw [hlm3, hlm]
    · rw [hpc3, hpc]; omega

/-- The loop `[-]` whose `[` is at index `n`, entered at its body with `v + 1` in the cell
and `n` on top of the loop stack: body and `]` run `v + 1` times, the cell ends at 0 and
the marker is popped. -/
theorem run_countdown_loop (source : List Char) (n : Nat) (L : List Nat)
    (hminus : source[n + 1]? = some '-') (hclose : source[n + 2]? = some ']') :
    ∀ (v : Nat) (s : BrainFuck), s.source_index_ = n + 1 →
    s.stack_[s.current_]? = some (v + 1) → v + 1 < 256 → s.loop_mark_ = n :: L →
    ∃ s1 pre, (∀ f, parse_loop source (2 * (v + 1) + f) s = parse_loop source f s1 ∧
        visited source (2 * (v + 1) + f) s = pre ++ visited source f s1) ∧
      pre.count (n + 1) = v + 1 ∧
      s1.stack_ = s.stack_.set s.current_ 0 ∧ s1.current_ = s.current_ ∧
      s1.loop_mark_ = L ∧ s1.source_index_ = n + 3 := by
  intro v
  induction v with
  | zero =>
    intro s hpc hcell _ hlm
    have hlt := lt_length_of_getElem? hcell
    have hsub : process_val_sub_ s
        = .ok { s with stack_ := s.stack_.set s.current_ ((0 + 1 + 255) % 256) } := by
      simp [process_val_sub_, hcell]
    obtain ⟨sa, hita, hsta, hcura, hlma, hpca⟩ :=
      parse_iter_ok_core (by rw [hpc]; exact hminus) command_map_minus hsub
    simp only at hsta hcura hlma hpca
    have hcella : sa.stack_[sa.current_]? = some 0 := by
      rw [hsta, hcura]; simp [List.getElem?_set_self hlt]
    have hend : process_loop_end_ sa = .ok { sa with loop_mark_ := L } := by
      simp [process_loop_end_, hcella, hlma, hlm]
    obtain ⟨sb, hitb, hstb, hcurb, hlmb, hpcb⟩ :=
      parse_iter_ok_core (by rw [hpca, hpc]; exact hclose) command_map_close hend
    simp only at hstb hcurb hlmb hpcb
    refine ⟨sb, [n + 1, n + 2], ?_, ?_, ?_, ?_, ?_, ?_⟩
    · intro f
      have e : 2 * (0 + 1) + f = (f + 1) + 1 := by omega
      rw [e, parse_loop_again hita, visited_again hita, parse_loop_again hitb,
        visited_again hitb, hpc, hpca, hpc]
      simp
    · simp
    · rw [hstb, hsta]
    · rw [hcurb, hcura]
    · exact hlmb
    · rw [hpcb, hpca, hpc]
  | succ v ih =>
    intro s hpc hcell hv hlm
    have hlt := lt_length_of_getElem? hcell
    have hsub : process_val_sub_ s
        = .ok { s with stack_ := s.stack_.set s.current_ ((v + 1 + 1 + 255) % 256) } := by
      simp [process_val_sub_, hcell]
    obtain ⟨sa, hita, hsta, hcura, hlma, hpca⟩ :=
      parse_iter_ok_core (by rw [hpc]; exact hminus) command_map_minus hsub
    simp only at hsta hcura hlma hpca
    have e1 : (v + 1 + 1 + 255) % 256 = v + 1 := by omega
    rw [e1] at hsta
    have hcella : sa.stack_[sa.current_]? = some (v + 1) := by
      rw [hsta, hcura]; simp [List.getElem?_set_self hlt]
    have hend : process_loop_end_ sa = .ok { sa with source_index_ := n } := by
      simp [process_loop_end_, hcella, hlma, hlm]
    obtain ⟨sb, hitb, hstb, hcurb, hlmb, hpcb⟩ :=
      parse_iter_ok_core (by rw [hpca, hpc]; exact hclose) command_map_close hend
    simp only at hstb hcurb hlmb hpcb
    have hcellb : sb.stack_[sb.current_]? = some (v + 1) := by
      rw [hstb, hcurb]; exact hcella
    obtain ⟨sc, pre, hrun, hcount, hstc, hcurc, hlmc, hpcc⟩ :=
      ih sb hpcb hcellb (by omega) (by rw [hlmb, hlma, hlm])
    refine ⟨sc, [n + 1, n + 2] ++ pre, ?_, ?_, ?_, ?_, ?_, ?_⟩
    · intro f
      have e : 2 * (v + 1 + 1) + f = ((2 * (v + 1) + f) + 1) + 1 := by omega
      rw [e, parse_loop_again hita, visited_again hita, parse_loop_again hitb,
        visited_again hitb, hpc, hpca, hpc, (hrun f).1, (hrun f).2]
      simp
    · rw [List.count_append, hcount]
      simp
      omega
    · rw [hstc, hstb, hsta, hcurb, hcura, List.set_set]
    · rw [hcurc, hcurb, hcura]
    · exact hlmc
    · exact hpcc

/-- C1: for `1 ≤ n ≤ 255`, on a freshly constructed interpreter with at least one cell
(tracing on or off), `parse` of `n` characters `+` followed by `[-]` returns as soon as the
fuel covers its `3 n + 1` loop iterations; the cell at the cursor is then 0 (the whole tape
is zero again, the cursor is on cell 0 and the loop stack is empty), and the loop body,
the `-` at index `n + 1`, has been executed exactly `n` times. -/
theorem C1_countdown_terminates (N n : Nat) (hN : 1 ≤ N) (hn1 : 1 ≤ n) (hn : n ≤ 255)
    (dbg : Bool) (cin : List (List Char)) (fuel : Nat) (hf : 3 * n + 2 ≤ fuel) :
    ∃ s, parse (countdown n) fuel (BrainFuck.new N dbg cin) = .returned s ∧
      s.stack_[s.current_]? = some 0 ∧
      s.stack_ = List.replicate N 0 ∧ s.current_ = 0 ∧ s.loop_mark_ = [] ∧
      (countdown n)[n + 1]? = some '-' ∧
      (visited (countdown n) fuel
        { BrainFuck.new N dbg cin with source_index_ := 0 }).count (n + 1) = n := by
  obtain ⟨v, rfl⟩ : ∃ v, n = v + 1 := ⟨n - 1, by omega⟩
  obtain ⟨r, rfl⟩ : ∃ r, fuel = (v + 1) + ((2 * (v + 1) + (r + 1)) + 1) :=
    ⟨fuel - (3 * (v + 1) + 2), by omega⟩
  have hcell0 : (List.replicate N 0)[0]? = some 0 := by
    simp [List.getElem?_replicate]; omega
  -- the `+` characters
  obtain ⟨s1, pre1, hrun1, hpre1, hst1, hcur1, hlm1, hpc1⟩ :=
    run_pluses (countdown (v + 1)) (v + 1)
      { BrainFuck.new N dbg cin with source_index_ := 0 } 0
      (by intro i hi; simpa using countdown_plus hi)
      (by simpa [BrainFuck.new, BrainFuck.reset_, BrainFuck.stacksize_] using hcell0)
      (by omega)
  have hst1' : s1.stack_ = (List.replicate N 0).set 0 (v + 1) := by
    rw [hst1]; simp [BrainFuck.new, BrainFuck.reset_, BrainFuck.stacksize_]
  have hcur1' : s1.current_ = 0 := by
    rw [hcur1]; simp [BrainFuck.new, BrainFuck.reset_]
  have hlm1' : s1.loop_mark_ = [] := by
    rw [hlm1]; simp [BrainFuck.new, BrainFuck.reset_]
  have hpc1' : s1.source_index_ = v + 1 := by
    rw [hpc1]; simp
  -- the `[`
  have hopen : (countdown (v + 1))[s1.source_index_]? = some '[' := by
    rw [hpc1']; simpa using countdown_tail (v + 1) 0
  obtain ⟨s2, hit2, hst2, hcur2, hlm2, hpc2⟩ :=
    parse_iter_ok_core hopen command_map_open
      (show process_loop_start_ s1
        = .ok { s1 with loop_mark_ := s1.source_index_ :: s1.loop_mark_ } from rfl)
  simp only at hst2 hcur2 hlm2 hpc2
  have hlt : 0 < (List.replicate N (0 : Nat)).length := by simp; omega
  have hcell2 : s2.stack_[s2.current_]? = some (v + 1) := by
    rw [hst2, hcur2, hst1', hcur1']; simp [List.getElem?_set_self hlt]
  -- the loop
  obtain ⟨s3, pre3, hrun3, hcount3, hst3, hcur3, hlm3, hpc3⟩ :=
    run_countdown_loop (countdown (v + 1)) (v + 1) []
      (by simpa using countdown_tail (v + 1) 1) (by simpa using countdown_tail (v + 1) 2)
      v s2 (by rw [hpc2, hpc1']) hcell2 (by omega) (by rw [hlm2, hpc1', hlm1'])
  -- the end of the source
  have hend : parse_iter (countdown (v + 1)) s3 = .finished s3 := by
    apply parse_iter_end
    rw [hpc3]
    simpa using countdown_tail (v + 1) 3
  have hst3' : s3.stack_ = List.replicate N 0 := by
    rw [hst3, hst2, hcur2, hst1', hcur1', List.set_set, set_self_of_getElem? hcell0]
  have hcur3' : s3.current_ = 0 := by rw [hcur3, hcur2, hcur1']
  refine ⟨s3, ?_, ?_, hst3', hcur3', hlm3, by simpa using countdown_tail (v + 1) 1, ?_⟩
  · unfold parse
    rw [(hrun1 _).1, parse_loop_again hit2, (hrun3 _).1, parse_loop_finished hend]
  · rw [hst3', hcur3']; exact hcell0
  · rw [(hrun1 _).2, visited_again hit2, (hrun3 _).2, visited_finished hend, hpc1']
    have h1 : pre1.count (v + 1 + 1) = 0 := by
      apply List.count_eq_zero_of_not_mem
      intro hmem
      have := hpre1 _ hmem
      simp at this
    simp [List.count_append, List.count_cons, h1, hcount3]

/-- Witness of C1: the spec's `++++[-]` (`n = 4`) on the default tape of 16 cells. -/
theorem C1_countdown_terminates_witness :
    1 ≤ 16 ∧ 1 ≤ 4 ∧ 4 ≤ 255 ∧ 3 * 4 + 2 ≤ 14 ∧
    ∃ s, parse ['+', '+', '+', '+', '[', '-', ']'] 14 (BrainFuck.new 16 false [])
        = .returned s ∧
      s.stack_[s.current_]? = some 0 ∧
      (visited ['+', '+', '+', '+', '[', '-', ']'] 14
        { BrainFuck.new 16 false [] with source_index_ := 0 }).count 5 = 4 := by
  refine ⟨by decide, by decide, by decide, by decide, ?_⟩
  obtain ⟨s, h1, h2, _, _, _, _, h3⟩ :=
    C1_countdown_terminates 16 4 (by decide) (by decide) (by decide) false [] 14 (by decide)
  exact ⟨s, h1, h2, h3⟩

/-! ## Plain handlers -/

theorem plain_ref_add : Plain process_ref_add_ := by
  refine ⟨?_, ?_, ?_⟩
  · intro s pc lm
    simp only [process_ref_add_, BrainFuck.relocate, BrainFuck.stacksize_]
    split <;> rfl
  · intro s s1 h
    simp only [process_ref_add_] at h
    split at h <;> (cases h; exact ⟨rfl, rfl⟩)
  · intro s f s1 h
    simp only [process_ref_add_] at h
    split at h <;> cases h

theorem plain_ref_sub : Plain process_ref_sub_ := by
  refine ⟨?_, ?_, ?_⟩
  · intro s pc lm
    simp only [process_ref_sub_, BrainFuck.relocate, BrainFuck.stacksize_]
    split <;> rfl
  · intro s s1 h
    simp only [process_ref_sub_] at h
    split at h <;> (cases h; exact ⟨rfl, rfl⟩)
  · intro s f s1 h
    simp only [process_ref_sub_] at h
    split at h <;> cases h

theorem plain_val_add : Plain process_val_add_ := by
  refine ⟨?_, ?_, ?_⟩
  · intro s pc lm
    simp only [process_val_add_, BrainFuck.relocate]
    split <;> rfl
  · intro s s1 h
    simp only [process_val_add_] at h
    split at h <;> first | (cases h; exact ⟨rfl, rfl⟩) | cases h
  · intro s f s1 h
    simp only [process_val_add_] at h
    split at h <;> first | (cases h; exact ⟨rfl, rfl⟩) | cases h

theorem plain_val_sub : Plain process_val_sub_ := by
  refine ⟨?_, ?_, ?_⟩
  · intro s pc lm
    simp only [process_val_sub_, BrainFuck.relocate]
    split <;> rfl
  · intro s s1 h
    simp only [process_val_sub_] at h
    split at h <;> first | (cases h; exact ⟨rfl, rfl⟩) | cases h
  · intro s f s1 h
    simp only [process_val_sub_] at h
    split at h <;> first | (cases h; exact ⟨rfl, rfl⟩) | cases h

theorem plain_val_put : Plain process_val_put_ := by
  refine ⟨?_, ?_, ?_⟩
  · intro s pc lm
    simp only [process_val_put_, BrainFuck.relocate]
    split
    · split <;> rfl
    · rfl
  · intro s s1 h
    simp only [process_val_put_] at h
    split at h
    · split at h <;> (cases h; exact ⟨rfl, rfl⟩)
    · cases h
  · intro s f s1 h
    simp only [process_val_put_] at h
    split at h
    · split at h <;> cases h
    · cases h; exact ⟨rfl, rfl⟩

theorem plain_val_get : Plain process_val_get_ := by
  refine ⟨?_, ?_, ?_⟩
  · intro s pc lm
    simp only [process_val_get_, BrainFuck.relocate]
    split
    · rfl
    · split <;> rfl
  · intro s s1 h
    simp only [process_val_get_] at h
    split at h
    · cases h
    · split at h
      · cases h; exact ⟨rfl, rfl⟩
      · cases h
  · intro s f s1 h
    simp only [process_val_get_] at h
    split at h
    · cases h; exact ⟨rfl, rfl⟩
    · split at h
      · cases h
      · cases h; exact ⟨rfl, rfl⟩

/-- The characters fall into four classes: no handler, `[`, `]`, and a plain handler. -/
theorem command_map_cases (c : Char) :
    (command_map_ c = none ∧ c ≠ '[' ∧ c ≠ ']') ∨ c = '[' ∨ c = ']' ∨
    (∃ h, command_map_ c = some h ∧ Plain h ∧ c ≠ '[' ∧ c ≠ ']') := by
  by_cases h1 : c = '>'
  · subst h1; exact Or.inr (Or.inr (Or.inr ⟨_, by simp [command_map_], plain_ref_add,
      by decide, by decide⟩))
  by_cases h2 : c = '<'
  · subst h2; exact Or.inr (Or.inr (Or.inr ⟨_, by simp [command_map_], plain_ref_sub,
      by decide, by decide⟩))
  by_cases h3 : c = '+'
  · subst h3; exact Or.inr (Or.inr (Or.inr ⟨_, by simp [command_map_], plain_val_add,
      by decide, by decide⟩))
  by_cases h4 : c = '-'
  · subst h4; exact Or.inr (Or.inr (Or.inr ⟨_, by simp [command_map_], plain_val_sub,
      by decide, by decide⟩))
  by_cases h5 : c = '.'
  · subst h5; exact Or.inr (Or.inr (Or.inr ⟨_, by simp [command_map_], plain_val_put,
      by decide, by decide⟩))
  by_cases h6 : c = ','
  · subst h6; exact Or.inr (Or.inr (Or.inr ⟨_, by simp [command_map_], plain_val_get,
      by decide, by decide⟩))
  by_cases h7 : c = '['
  · exact Or.inr (Or.inl h7)
  by_cases h8 : c = ']'
  · exact Or.inr (Or.inr (Or.inl h8))
  exact Or.inl ⟨by simp [command_map_, h1, h2, h3, h4, h5, h6, h7, h8], h7, h8⟩

/-! ## The syntactic bracket stack -/

theorem open_marks_succ (source : List Char) (i : Nat) (st : List Nat)
    (h : open_marks source i = some st) :
    open_marks source (i + 1) =
      match source[i]? with
      | none => some st
      | some c =>
        if c = '[' then some (i :: st)
        else if c = ']' then pop_mark st
        else some st := by
  simp only [open_marks, h]

theorem open_marks_pred {source : List Char} {i : Nat} {t : List Nat}
    (h : open_marks source (i + 1) = some t) : ∃ st, open_marks source i = some st := by
  cases hi : open_marks source i with
  | none => simp [open_marks, hi] at h
  | some st => exact ⟨st, rfl⟩

theorem open_marks_of_le {source : List Char} {n : Nat} :
    ∀ {t : List Nat}, open_marks source n = some t →
      ∀ i, i ≤ n → ∃ st, open_marks source i = some st := by
  induction n with
  | zero =>
    intro t h i hi
    have : i = 0 := by omega
    subst this
    exact ⟨t, h⟩
  | succ n ih =>
    intro t h i hi
    rcases Nat.lt_or_ge i (n + 1) with hlt | hge
    · obtain ⟨st, hst⟩ := open_marks_pred h
      exact ih hst i (by omega)
    · have : i = n + 1 := by omega
      subst this
      exact ⟨t, h⟩

theorem closes_matched_at {source : List Char} (hm : closes_matched source) (i : Nat)
    (hi : i ≤ source.length) : ∃ st, open_marks source i = some st := by
  unfold closes_matched at hm
  cases h : open_marks source source.length with
  | none => simp [h] at hm
  | some t => exact open_marks_of_le h i hi

theorem chain_tail {source : List Char} {p : Nat} {t : List Nat}
    (h : Chain source (p :: t)) : Chain source t := h.2.2

theorem open_marks_chain (source : List Char) (i : Nat) :
    ∀ st, open_marks source i = some st → Chain source st := by
  induction i with
  | zero =>
    intro st h
    simp only [open_marks, Option.some.injEq] at h
    subst h
    trivial
  | succ i ih =>
    intro st h
    obtain ⟨st0, h0⟩ := open_marks_pred h
    have hc := ih st0 h0
    have hs := open_marks_succ source i st0 h0
    rw [h] at hs
    cases hg : source[i]? with
    | none =>
      simp only [hg, Option.some.injEq] at hs
      subst hs; exact hc
    | some c =>
      simp only [hg] at hs
      by_cases h1 : c = '['
      · simp only [h1, if_true, Option.some.injEq] at hs
        subst hs
        exact ⟨by rw [hg, h1], h, hc⟩
      · by_cases h2 : c = ']'
        · rw [if_neg h1, if_pos h2] at hs
          cases st0 with
          | nil => simp [pop_mark] at hs
          | cons q r =>
            simp only [pop_mark, Option.some.injEq] at hs
            subst hs
            exact chain_tail hc
        · rw [if_neg h1, if_neg h2] at hs
          simp only [Option.some.injEq] at hs
          subst hs; exact hc

theorem getElem?_mid (pre inner post : List Char) (i : Nat) (hi : i < inner.length) :
    (pre ++ inner ++ post)[i + pre.length]? = inner[i]? := by
  rw [List.append_assoc, List.getElem?_append_right (by omega)]
  have e : i + pre.length - pre.length = i := by omega
  rw [e, List.getElem?_append_left hi]

/-! ## Trace and advance -/

theorem parse_iter_ok_eq {source : List Char} {s s1 : BrainFuck} {token : Char}
    {command : BrainFuck → Step}
    (ht : source[s.source_index_]? = some token) (hm : command_map_ token = some command)
    (hs : command s = .ok s1) :
    parse_iter source s = .again (trace_and_advance token s1) :=
  parse_iter_ok ht hm hs

theorem trace_and_advance_relocate (token : Char) (s : BrainFuck) (pc : Nat) (lm : List Nat) :
    trace_and_advance token (s.relocate pc lm)
      = (trace_and_advance token s).relocate (pc + 1) lm := by
  unfold trace_and_advance BrainFuck.relocate
  cases h : s.should_print_stack_ <;> simp [h, print_stack_]

theorem trace_and_advance_pc (token : Char) (s : BrainFuck) :
    (trace_and_advance token s).source_index_ = s.source_index_ + 1 := rfl

theorem trace_and_advance_lm (token : Char) (s : BrainFuck) :
    (trace_and_advance token s).loop_mark_ = s.loop_mark_ := by
  unfold trace_and_advance
  cases h : s.should_print_stack_ <;> simp [h, print_stack_]

/-! ## Simulation of a source embedded in a longer one, over another loop stack -/

theorem sim_iter (pre post : List Char) {inner : List Char} {L1 L2 : List Nat}
    (hm : closes_matched inner) {a b : BrainFuck} (h : Sim inner pre.length L1 L2 a b) :
    (∀ a1, parse_iter inner a = .again a1 →
      ∃ b1, parse_iter (pre ++ inner ++ post) b = .again b1 ∧
        Sim inner pre.length L1 L2 a1 b1) ∧
    (∀ f a1, parse_iter inner a = .failed f a1 →
      ∃ b1, parse_iter (pre ++ inner ++ post) b = .failed f b1 ∧
        Sim inner pre.length L1 L2 a1 b1) ∧
    (∀ a1, parse_iter inner a = .finished a1 →
      a1 = a ∧ a.source_index_ = inner.length) := by
  obtain ⟨hle, t, ht, hlm, rfl⟩ := h
  cases hc : inner[a.source_index_]? with
  | none =>
    have hfin := parse_iter_end hc
    have hlen : inner.length ≤ a.source_index_ := List.getElem?_eq_none_iff.mp hc
    refine ⟨?_, ?_, ?_⟩
    · intro a1 h1; rw [hfin] at h1; cases h1
    · intro f a1 h1; rw [hfin] at h1; cases h1
    · intro a1 h1; rw [hfin] at h1; cases h1; exact ⟨rfl, by omega⟩
  | some c =>
    have hlt : a.source_index_ < inner.length := by
      rcases List.getElem?_eq_some.mp hc with ⟨hlt, _⟩; exact hlt
    have hcb : (pre ++ inner ++ post)[(a.relocate (a.source_index_ + pre.length)
        (t.map (fun p => p + pre.length) ++ L2)).source_index_]? = some c := by
      show (pre ++ inner ++ post)[a.source_index_ + pre.length]? = some c
      rw [getElem?_mid pre inner post _ hlt, hc]
    obtain ⟨t1, ht1⟩ := closes_matched_at hm (a.source_index_ + 1) (by omega)
    have hsucc := open_marks_succ inner a.source_index_ t ht
    rw [ht1, hc] at hsucc
    simp only at hsucc
    have hchain := open_marks_chain inner a.source_index_ t ht
    rcases command_map_cases c with
      ⟨hnone, hno, hnc⟩ | hopen | hclose | ⟨hd, hmap, hplain, hno, hnc⟩
    · -- no handler
      have ha := parse_iter_skip (s := a) hc hnone
      have hb := parse_iter_skip hcb hnone
      rw [if_neg hno, if_neg hnc] at hsucc
      refine ⟨?_, ?_, ?_⟩
      · intro a1 h1
        rw [ha] at h1; cases h1
        refine ⟨_, hb, by simpa using hlt, t, ?_, hlm, ?_⟩
        · show open_marks inner (a.source_index_ + 1) = some t
          rw [ht1, hsucc]
        · simp only [BrainFuck.relocate]
          have e : a.source_index_ + pre.length + 1 = a.source_index_ + 1 + pre.length := by
            omega
          rw [e]
      · intro f a1 h1; rw [ha] at h1; cases h1
      · intro a1 h1; rw [ha] at h1; cases h1
    · -- `[`
      subst hopen
      have ha := parse_iter_ok_eq (s := a) hc command_map_open
        (show process_loop_start_ a = .ok _ from rfl)
      have hb := parse_iter_ok_eq hcb command_map_open
        (show process_loop_start_ _ = .ok _ from rfl)
      rw [if_pos rfl] at hsucc
      refine ⟨?_, ?_, ?_⟩
      · intro a1 h1
        rw [ha] at h1; cases h1
        refine ⟨_, hb, by simpa [trace_and_advance_pc] using hlt, a.source_index_ :: t,
          ?_, ?_, ?_⟩
        · rw [trace_and_advance_pc]
          show open_marks inner (a.source_index_ + 1) = _
          rw [ht1, hsucc]
        · rw [trace_and_advance_lm]
          show a.source_index_ :: a.loop_mark_ = _
          rw [hlm]; rfl
        · have := trace_and_advance_relocate '['
            { a with loop_mark_ := a.source_index_ :: a.loop_mark_ }
            (a.source_index_ + pre.length)
            ((a.source_index_ :: t).map (fun p => p + pre.length) ++ L2)
          rw [trace_and_advance_pc]
          simp only [BrainFuck.relocate, List.map_cons, List.cons_append] at this ⊢
          have e : a.source_index_ + 1 + pre.length = a.source_index_ + pre.length + 1 := by
            omega
          rw [e, ← this]
      · intro f a1 h1; rw [ha] at h1; cases h1
      · intro a1 h1; rw [ha] at h1; cases h1
    · -- `]`
      subst hclose
      rw [if_neg (by decide), if_pos rfl] at hsucc
      cases t with
      | nil => simp [pop_mark] at hsucc
      | cons p r =>
        simp only [pop_mark, Option.some.injEq] at hsucc
        subst hsucc
        cases hcell : a.stack_[a.current_]? with
        | none =>
          have hea : process_loop_end_ a = .error (.cell_out_of_bounds, a) := by
            simp [process_loop_end_, hcell]
          have heb : process_loop_end_ (a.relocate (a.source_index_ + pre.length)
              ((p :: t1).map (fun p => p + pre.length) ++ L2))
              = .error (.cell_out_of_bounds, a.relocate (a.source_index_ + pre.length)
                  ((p :: t1).map (fun p => p + pre.length) ++ L2)) := by
            simp [process_loop_end_, BrainFuck.relocate, hcell]
          have ha := parse_iter_error (s := a) hc command_map_close hea
          have hb := parse_iter_error hcb command_map_close heb
          refine ⟨?_, ?_, ?_⟩
          · intro a1 h1; rw [ha] at h1; cases h1
          · intro f a1 h1
            rw [ha] at h1; cases h1
            exact ⟨_, hb, hle, p :: t1, ht, hlm, rfl⟩
          · intro a1 h1; rw [ha] at h1; cases h1
        | some v =>
          by_cases hv : v = 0
          · -- the loop is left
            have hea : process_loop_end_ a = .ok { a with loop_mark_ := t1 ++ L1 } := by
              simp [process_loop_end_, hcell, hv, hlm]
            have heb : process_loop_end_ (a.relocate (a.source_index_ + pre.length)
                ((p :: t1).map (fun p => p + pre.length) ++ L2))
                = .ok ({ a with loop_mark_ := t1 ++ L1 }.relocate
                    (a.source_index_ + pre.length)
                    (t1.map (fun p => p + pre.length) ++ L2)) := by
              simp [process_loop_end_, BrainFuck.relocate, hcell, hv]
            have ha := parse_iter_ok_eq (s := a) hc command_map_close hea
            have hb := parse_iter_ok_eq hcb command_map_close heb
            rw [trace_and_advance_relocate] at hb
            refine ⟨?_, ?_, ?_⟩
            · intro a1 h1
              rw [ha] at h1; cases h1
              refine ⟨_, hb, by simpa [trace_and_advance_pc] using hlt, t1, ?_, ?_, ?_⟩
              · rw [trace_and_advance_pc]; exact ht1
              · rw [trace_and_advance_lm]
              · rw [trace_and_advance_pc]
                have e : a.source_index_ + 1 + pre.length
                    = a.source_index_ + pre.length + 1 := by omega
                show _ = (trace_and_advance ']' _).relocate (a.source_index_ + 1 + pre.length) _
                rw [e]
            · intro f a1 h1; rw [ha] at h1; cases h1
            · intro a1 h1; rw [ha] at h1; cases h1
          · -- the loop is repeated
            obtain ⟨hpo, hpm, _⟩ := hchain
            have hpl : p < inner.length := by
              rcases List.getElem?_eq_some.mp hpo with ⟨hlt, _⟩; exact hlt
            have hea : process_loop_end_ a = .ok { a with source_index_ := p } := by
              simp [process_loop_end_, hcell, hv, hlm]
            have heb : process_loop_end_ (a.relocate (a.source_index_ + pre.length)
                ((p :: t1).map (fun p => p + pre.length) ++ L2))
                = .ok ({ a with source_index_ := p }.relocate (p + pre.length)
                    ((p :: t1).map (fun p => p + pre.length) ++ L2)) := by
              simp [process_loop_end_, BrainFuck.relocate, hcell, hv]
            have ha := parse_iter_ok_eq (s := a) hc command_map_close hea
            have hb := parse_iter_ok_eq hcb command_map_close heb
            rw [trace_and_advance_relocate] at hb
            refine ⟨?_, ?_, ?_⟩
            · intro a1 h1
              rw [ha] at h1; cases h1
              refine ⟨_, hb, ?_, p :: t1, ?_, ?_, ?_⟩
              · rw [trace_and_advance_pc]; show p + 1 ≤ inner.length; omega
              · rw [trace_and_advance_pc]; exact hpm
              · rw [trace_and_advance_lm]; exact hlm
              · rw [trace_and_advance_pc]
                have e : p + 1 + pre.length = p + pre.length + 1 := by omega
                show _ = (trace_and_advance ']' _).relocate (p + 1 + pre.length) _
                rw [e]
            · intro f a1 h1; rw [ha] at h1; cases h1
            · intro a1 h1; rw [ha] at h1; cases h1
    · -- a plain handler
      rw [if_neg hno, if_neg hnc] at hsucc
      obtain ⟨hreloc, hok, herr⟩ := hplain
      have hrb := hreloc a (a.source_index_ + pre.length)
        (t.map (fun p => p + pre.length) ++ L2)
      cases hra : hd a with
      | error e =>
        obtain ⟨f, a2⟩ := e
        rw [hra] at hrb
        obtain ⟨hpc2, hlm2⟩ := herr a f a2 hra
        have ha := parse_iter_error (s := a) hc hmap hra
        have hb := parse_iter_error hcb hmap hrb
        refine ⟨?_, ?_, ?_⟩
        · intro a1 h1; rw [ha] at h1; cases h1
        · intro f1 a1 h1
          rw [ha] at h1; cases h1
          refine ⟨_, hb, by rw [hpc2]; exact hle, t, by rw [hpc2]; exact ht,
            by rw [hlm2]; exact hlm, ?_⟩
          rw [hpc2]
        · intro a1 h1; rw [ha] at h1; cases h1
      | ok a2 =>
        rw [hra] at hrb
        obtain ⟨hpc2, hlm2⟩ := hok a a2 hra
        have ha := parse_iter_ok_eq (s := a) hc hmap hra
        have hb := parse_iter_ok_eq hcb hmap hrb
        rw [trace_and_advance_relocate] at hb
        refine ⟨?_, ?_, ?_⟩
        · intro a1 h1
          rw [ha] at h1; cases h1
          refine ⟨_, hb, ?_, t, ?_, ?_, ?_⟩
          · rw [trace_and_advance_pc, hpc2]; omega
          · rw [trace_and_advance_pc, hpc2, ht1, hsucc]
          · rw [trace_and_advance_lm, hlm2]; exact hlm
          · rw [trace_and_advance_pc, hpc2]
            have e : a.source_index_ + 1 + pre.length
                = a.source_index_ + pre.length + 1 := by omega
            rw [e]
        · intro f a1 h1; rw [ha] at h1; cases h1
        · intro a1 h1; rw [ha] at h1; cases h1

theorem sim_run (pre post : List Char) {inner : List Char} {L1 L2 : List Nat}
    (hm : closes_matched inner) :
    ∀ (fuel : Nat) (a b : BrainFuck), Sim inner pre.length L1 L2 a b →
      (∀ a1, parse_loop inner fuel a = .returned a1 →
        ∃ b1 n, n + 1 ≤ fuel ∧ Sim inner pre.length L1 L2 a1 b1 ∧
          a1.source_index_ = inner.length ∧
          ∀ k, parse_loop (pre ++ inner ++ post) (n + k) b
            = parse_loop (pre ++ inner ++ post) k b1) ∧
      (∀ f a1, parse_loop inner fuel a = .fault f a1 →
        ∃ b1, Sim inner pre.length L1 L2 a1 b1 ∧
          parse_loop (pre ++ inner ++ post) fuel b = .fault f b1) ∧
      (parse_loop inner fuel a = .out_of_fuel →
        parse_loop (pre ++ inner ++ post) fuel b = .out_of_fuel) := by
  intro fuel
  induction fuel with
  | zero =>
    intro a b _
    refine ⟨?_, ?_, ?_⟩
    · intro a1 h1; simp [parse_loop] at h1
    · intro f a1 h1; simp [parse_loop] at h1
    · intro _; rfl
  | succ fuel ih =>
    intro a b hsim
    obtain ⟨hag, hfl, hfi⟩ := sim_iter pre post hm hsim
    cases hi : parse_iter inner a with
    | again a2 =>
      obtain ⟨b2, hb2, hsim2⟩ := hag a2 hi
      obtain ⟨ihr, ihf, iho⟩ := ih a2 b2 hsim2
      rw [parse_loop_again hi, parse_loop_again hb2]
      refine ⟨?_, ihf, iho⟩
      intro a1 h1
      obtain ⟨b1, n, hn, hs1, hpc1, hrun⟩ := ihr a1 h1
      refine ⟨b1, n + 1, by omega, hs1, hpc1, ?_⟩
      intro k
      have e : n + 1 + k = (n + k) + 1 := by omega
      rw [e, parse_loop_again hb2, hrun k]
    | finished a2 =>
      obtain ⟨rfl, hpc⟩ := hfi a2 hi
      rw [parse_loop_finished hi]
      refine ⟨?_, ?_, ?_⟩
      · intro a1 h1
        cases h1
        exact ⟨b, 0, by omega, hsim, hpc, by intro k; simp⟩
      · intro f a1 h1; cases h1
      · intro h1; cases h1
    | failed f a2 =>
      obtain ⟨b2, hb2, hsim2⟩ := hfl f a2 hi
      rw [parse_loop_failed hi, parse_loop_failed hb2]
      refine ⟨?_, ?_, ?_⟩
      · intro a1 h1; cases h1
      · intro f1 a1 h1
        cases h1
        exact ⟨b2, hsim2, rfl⟩
      · intro h1; cases h1

/-- The states related by `Sim` agree on everything but program counter and loop stack. -/
theorem sim_same_effect {inner : List Char} {d : Nat} {L1 L2 : List Nat} {a b : BrainFuck}
    (h : Sim inner d L1 L2 a b) : same_effect a b := by
  obtain ⟨_, t, _, _, rfl⟩ := h
  exact ⟨rfl, rfl, rfl, rfl, rfl, rfl, rfl⟩

theorem parse_loop_at_end {source : List Char} {s : BrainFuck}
    (h : source.length ≤ s.source_index_) (fuel : Nat) :
    parse_loop source (fuel + 1) s = .returned s :=
  parse_loop_finished (parse_iter_end (List.getElem?_eq_none_iff.mpr h)) fuel

theorem parse_loop_of_le {source : List Char} {s : BrainFuck} {fuel fuel1 : Nat} {r : Outcome}
    (h : parse_loop source fuel s = r) (hr : r ≠ .out_of_fuel) (hle : fuel ≤ fuel1) :
    parse_loop source fuel1 s = r := by
  obtain ⟨k, rfl⟩ : ∃ k, fuel1 = fuel + k := ⟨fuel1 - fuel, by omega⟩
  rw [parse_loop_mono source k fuel s (by rw [h]; exact hr), h]

/-- C9: for sources `a` and `b` whose brackets are all matched within the source, if
`parse(a)` returns (with fuel `fa`, in state `sa`) and `parse(b)`, called next on the
same instance, returns (with fuel `fb`, in state `sb`), then a single `parse(a ++ b)` from
the same initial state returns, and its final state is `sb` in every member (tape,
cursor, loop stack, both streams, trace members) except `source_index_`, which is the
length of `a ++ b`. -/
theorem C9_parse_twice_is_parse_concat (a b : List Char)
    (ha : brackets_matched a) (hb : brackets_matched b) (s sa sb : BrainFuck) (fa fb : Nat)
    (h1 : parse a fa s = .returned sa) (h2 : parse b fb sa = .returned sb) :
    parse (a ++ b) (fa + fb) s
      = .returned { sb with source_index_ := a.length + b.length } := by
  have hma : closes_matched a := by unfold closes_matched; rw [ha]; rfl
  have hmb : closes_matched b := by unfold closes_matched; rw [hb]; rfl
  -- the run of `a` inside `a ++ b`
  have hsimA : Sim a ([] : List Char).length s.loop_mark_ s.loop_mark_
      { s with source_index_ := 0 } { s with source_index_ := 0 } :=
    ⟨Nat.zero_le _, [], rfl, rfl, rfl⟩
  obtain ⟨a1, n, hn, hsA, hpcA, hrunA⟩ :=
    (sim_run [] b hma fa _ _ hsimA).1 sa h1
  have ea : a1 = sa := by
    obtain ⟨_, t, _, hl, hb1⟩ := hsA
    have hmap : t.map (fun p => p + ([] : List Char).length) = t := by simp
    rw [hb1, hmap, ← hl]
    rfl
  -- the run of `b` inside `a ++ b`
  have hsimB : Sim b a.length sa.loop_mark_ sa.loop_mark_
      { sa with source_index_ := 0 } sa := by
    refine ⟨Nat.zero_le _, [], rfl, rfl, ?_⟩
    show sa = { sa with source_index_ := 0 + a.length, loop_mark_ := sa.loop_mark_ }
    rw [Nat.zero_add, ← hpcA]
  obtain ⟨b1, m, hm, hsB, hpcB, hrunB⟩ :=
    (sim_run a [] hmb fb _ _ hsimB).1 sb h2
  have eb : b1 = { sb with source_index_ := a.length + b.length } := by
    obtain ⟨_, t, ht, hl, hb1⟩ := hsB
    rw [hpcB] at ht
    unfold brackets_matched at hb
    rw [hb] at ht
    cases ht
    rw [hb1, hpcB]
    show ({ sb with source_index_ := b.length + a.length, loop_mark_ := sa.loop_mark_ } :
      BrainFuck) = _
    have hl1 : sb.loop_mark_ = sa.loop_mark_ := hl
    rw [← hl1, Nat.add_comm]
  have hfinal : parse_loop (a ++ b) (n + (m + 1)) { s with source_index_ := 0 }
      = .returned { sb with source_index_ := a.length + b.length } := by
    have e1 := hrunA (m + 1)
    have e2 := hrunB 1
    simp only [List.nil_append, List.append_nil] at e1 e2
    rw [e1, ea, e2, eb]
    exact parse_loop_at_end (by simp) 0
  exact parse_loop_of_le hfinal (by simp) (by omega)

/-- Witness of C9: the spec's case, `parse("+")` then `parse(".")` on a fresh one-cell
interpreter, against `parse("+.")`; the byte 1 is emitted. -/
theorem C9_parse_twice_is_parse_concat_witness :
    brackets_matched ['+'] ∧ brackets_matched ['.'] ∧
    parse ['+'] 2 (BrainFuck.new 1 false [])
      = .returned { BrainFuck.new 1 false [] with stack_ := [1], source_index_ := 1 } ∧
    parse ['.'] 2 { BrainFuck.new 1 false [] with stack_ := [1], source_index_ := 1 }
      = .returned { BrainFuck.new 1 false [] with
          stack_ := [1], source_index_ := 1, cout := [1] } ∧
    parse ['+', '.'] 4 (BrainFuck.new 1 false [])
      = .returned { BrainFuck.new 1 false [] with
          stack_ := [1], source_index_ := 2, cout := [1] } :=
  ⟨by decide, by decide, by decide, by decide,
    C9_parse_twice_is_parse_concat ['+'] ['.'] (by decide) (by decide)
      (BrainFuck.new 1 false [])
      { BrainFuck.new 1 false [] with stack_ := [1], source_index_ := 1 }
      { BrainFuck.new 1 false [] with stack_ := [1], source_index_ := 1, cout := [1] }
      2 2 (by decide) (by decide)⟩

/-- C10, as stated, fails: `parse` does not clear `loop_mark_`.  Two fresh one-cell
interpreters that ran `aa[` and `a[` have the same tape and cursor but the loop stacks
`[2]` and `[1]`; on the source `++.-]` the first one emits the byte 2 only, the second one
emits 2 and then 1. -/
theorem C10_counterexample :
    parse ['a', 'a', '['] 4 (BrainFuck.new 1 false [])
      = .returned { BrainFuck.new 1 false [] with loop_mark_ := [2], source_index_ := 3 } ∧
    parse ['a', '['] 3 (BrainFuck.new 1 false [])
      = .returned { BrainFuck.new 1 false [] with loop_mark_ := [1], source_index_ := 2 } ∧
    parse ['+', '+', '.', '-', ']'] 9
        { BrainFuck.new 1 false [] with loop_mark_ := [2], source_index_ := 3 }
      = .returned { BrainFuck.new 1 false [] with source_index_ := 5, cout := [2] } ∧
    parse ['+', '+', '.', '-', ']'] 9
        { BrainFuck.new 1 false [] with loop_mark_ := [1], source_index_ := 2 }
      = .returned { BrainFuck.new 1 false [] with source_index_ := 5, cout := [2, 1] } := by
  decide

/-- C10, amended: on a source in which every `]` closes an earlier `[` of the same source,
the effect of `parse` does not depend on the loop markers left behind by earlier calls.
Two instances that differ only in the leftover loop stacks `L1` and `L2` behave
identically: with the same fuel both calls of `parse` return, or both fault in the same
way, or both are still running, and the states they end in agree on tape, cursor, both
streams and the trace members.  When they return, the loop stacks are `t ++ L1` and
`t ++ L2`, where `t` lists the `[` that the source leaves open: each instance still
carries its own leftover markers. -/
theorem C10_leftover_marks_do_not_matter (source : List Char) (hm : closes_matched source)
    (s : BrainFuck) (L1 L2 : List Nat) (fuel : Nat) :
    Outcome.same_effect (parse source fuel { s with loop_mark_ := L1 })
      (parse source fuel { s with loop_mark_ := L2 }) ∧
    (∀ a1, parse source fuel { s with loop_mark_ := L1 } = .returned a1 →
      ∃ b1 t, parse source fuel { s with loop_mark_ := L2 } = .returned b1 ∧
        open_marks source source.length = some t ∧
        a1.loop_mark_ = t ++ L1 ∧ b1.loop_mark_ = t ++ L2 ∧
        a1.source_index_ = source.length ∧ b1.source_index_ = source.length) := by
  have hsim : Sim source ([] : List Char).length L1 L2
      { s with loop_mark_ := L1, source_index_ := 0 }
      { s with loop_mark_ := L2, source_index_ := 0 } :=
    ⟨Nat.zero_le _, [], rfl, rfl, rfl⟩
  obtain ⟨hret, hflt, hout⟩ := sim_run [] [] hm fuel _ _ hsim
  simp only [List.nil_append, List.append_nil] at hret hflt hout
  have hboth : ∀ a1,
      parse_loop source fuel { s with loop_mark_ := L1, source_index_ := 0 } = .returned a1 →
      ∃ b1 t, parse_loop source fuel { s with loop_mark_ := L2, source_index_ := 0 }
          = .returned b1 ∧ same_effect a1 b1 ∧
        open_marks source source.length = some t ∧
        a1.loop_mark_ = t ++ L1 ∧ b1.loop_mark_ = t ++ L2 ∧
        a1.source_index_ = source.length ∧ b1.source_index_ = source.length := by
    intro a1 hr
    obtain ⟨b1, n, hn, hs1, hpc1, hrun⟩ := hret a1 hr
    have hse := sim_same_effect hs1
    obtain ⟨_, t, ht, hl, hb⟩ := hs1
    have hbpc : b1.source_index_ = source.length := by
      rw [hb]
      show a1.source_index_ + 0 = source.length
      omega
    have hblm : b1.loop_mark_ = t ++ L2 := by
      rw [hb]
      show t.map (fun p => p + ([] : List Char).length) ++ L2 = t ++ L2
      simp
    have h2 : parse_loop source (n + 1) { s with loop_mark_ := L2, source_index_ := 0 }
        = .returned b1 := by
      rw [hrun 1]; exact parse_loop_at_end (by omega) 0
    have h3 := parse_loop_of_le h2 (by simp) hn
    rw [hpc1] at ht
    exact ⟨b1, t, h3, hse, ht, hl, hblm, hpc1, hbpc⟩
  unfold parse
  constructor
  · cases hr : parse_loop source fuel { s with loop_mark_ := L1, source_index_ := 0 } with
    | returned a1 =>
      obtain ⟨b1, t, h3, hse, _⟩ := hboth a1 hr
      show Outcome.same_effect (.returned a1) (parse_loop source fuel _)
      rw [h3]
      exact hse
    | fault f a1 =>
      obtain ⟨b1, hs1, h2⟩ := hflt f a1 hr
      show Outcome.same_effect (.fault f a1) (parse_loop source fuel _)
      rw [h2]
      exact ⟨rfl, sim_same_effect hs1⟩
    | out_of_fuel =>
      show Outcome.same_effect .out_of_fuel (parse_loop source fuel _)
      rw [hout hr]
      trivial
  · intro a1 hr
    obtain ⟨b1, t, h3, _, h4⟩ := hboth a1 hr
    exact ⟨b1, t, h3, h4⟩

/-- Witness of C10 (amended): the source `++[.-]`, whose `]` is matched, run over the
leftover stacks `[2]` and `[1]` of the counterexample: both runs return with the same
output and each keeps its own marker. -/
theorem C10_leftover_marks_do_not_matter_witness :
    closes_matched ['+', '+', '[', '.', '-', ']'] ∧
    parse ['+', '+', '[', '.', '-', ']'] 12
        { BrainFuck.new 1 false [] with loop_mark_ := [2] }
      = .returned { BrainFuck.new 1 false [] with
          loop_mark_ := [2], source_index_ := 6, cout := [2, 1] } ∧
    ∃ b1 t, parse ['+', '+', '[', '.', '-', ']'] 12
        { BrainFuck.new 1 false [] with loop_mark_ := [1] } = .returned b1 ∧
      open_marks ['+', '+', '[', '.', '-', ']'] 6 = some t ∧
      [2] = t ++ [2] ∧ b1.loop_mark_ = t ++ [1] :=
  ⟨by decide, by decide, by
    obtain ⟨b1, t, h1, h2, h3, h4, _⟩ :=
      (C10_leftover_marks_do_not_matter ['+', '+', '[', '.', '-', ']'] (by decide)
        (BrainFuck.new 1 false []) [2] [1] 12).2
        { BrainFuck.new 1 false [] with
          loop_mark_ := [2], source_index_ := 6, cout := [2, 1] } (by decide)
    exact ⟨b1, t, h1, h2, h3, h4⟩⟩

/-! ## Removal of the characters without handler -/

theorem is_command_iff (c : Char) : is_command c = true ↔ command_map_ c ≠ none := by
  unfold is_command
  cases command_map_ c <;> simp

theorem new_index_succ_command {source : List Char} {i : Nat} {c : Char}
    (hc : source[i]? = some c) (h : command_map_ c ≠ none) :
    new_index source (i + 1) = new_index source i + 1 := by
  have hi : is_command c = true := (is_command_iff c).mpr h
  unfold new_index
  rw [List.take_succ, hc]
  simp [List.filter_append, hi]

theorem new_index_succ_skip {source : List Char} {i : Nat} {c : Char}
    (hc : source[i]? = some c) (h : command_map_ c = none) :
    new_index source (i + 1) = new_index source i := by
  have hi : is_command c = false := by
    cases hic : is_command c with
    | false => rfl
    | true => exact absurd h ((is_command_iff c).mp hic)
  unfold new_index
  rw [List.take_succ, hc]
  simp [List.filter_append, hi]

theorem new_index_end {source : List Char} {i : Nat} (h : source.length ≤ i) :
    new_index source i = (strip source).length := by
  unfold new_index strip
  rw [List.take_of_length_le h]

theorem strip_getElem? (source : List Char) : ∀ (i : Nat) (c : Char),
    source[i]? = some c → command_map_ c ≠ none →
    (strip source)[new_index source i]? = some c := by
  induction source with
  | nil => intro i c h; simp at h
  | cons x xs ih =>
    intro i c h hc
    cases i with
    | zero =>
      simp only [List.getElem?_cons_zero, Option.some.injEq] at h
      subst h
      have hi : is_command x = true := (is_command_iff x).mpr hc
      simp [strip, new_index, hi]
    | succ j =>
      simp only [List.getElem?_cons_succ] at h
      have := ih j c h hc
      unfold strip new_index at this ⊢
      cases hx : is_command x with
      | false => simpa [hx] using this
      | true => simpa [hx] using this

theorem command_map_open_ne : command_map_ '[' ≠ none := by
  rw [command_map_open]; simp

theorem command_map_close_ne : command_map_ ']' ≠ none := by
  rw [command_map_close]; simp

/-- One loop iteration on `source` against `strip source`: both are at the end, or
`source` skips a character while `strip source` waits, or both dispatch the same
command, or both fault in the same way. -/
theorem strip_iter {source : List Char} {a b : BrainFuck} (h : Strip source a b) :
    (parse_iter source a = .finished a ∧ parse_iter (strip source) b = .finished b) ∨
    (∃ a1, parse_iter source a = .again a1 ∧ Strip source a1 b ∧
      a.source_index_ < source.length ∧ a1.source_index_ = a.source_index_ + 1) ∨
    (∃ a1 b1, parse_iter source a = .again a1 ∧ parse_iter (strip source) b = .again b1 ∧
      Strip source a1 b1) ∨
    (∃ f a1 b1, parse_iter source a = .failed f a1 ∧
      parse_iter (strip source) b = .failed f b1 ∧ Strip source a1 b1) := by
  obtain ⟨hle, hmarks, rfl⟩ := h
  cases hc : source[a.source_index_]? with
  | none =>
    left
    have hlen : source.length ≤ a.source_index_ := List.getElem?_eq_none_iff.mp hc
    refine ⟨parse_iter_end hc, parse_iter_end ?_⟩
    show (strip source)[new_index source a.source_index_]? = none
    rw [new_index_end hlen]
    simp
  | some c =>
    right
    have hlt : a.source_index_ < source.length := by
      rcases List.getElem?_eq_some.mp hc with ⟨hlt, _⟩; exact hlt
    rcases command_map_cases c with
      ⟨hnone, _, _⟩ | hopen | hclose | ⟨hd, hmap, hplain, _, _⟩
    · -- no handler: `source` skips the character
      left
      refine ⟨_, parse_iter_skip hc hnone, ⟨by simpa using hlt, hmarks, ?_⟩, hlt, rfl⟩
      show _ = a.relocate (new_index source (a.source_index_ + 1)) _
      rw [new_index_succ_skip hc hnone]
    · -- `[`
      subst hopen
      right; left
      have hcb : (strip source)[(a.relocate (new_index source a.source_index_)
          (a.loop_mark_.map (new_index source))).source_index_]? = some '[' :=
        strip_getElem? source _ _ hc command_map_open_ne
      have ha := parse_iter_ok_eq (s := a) hc command_map_open
        (show process_loop_start_ a = .ok _ from rfl)
      have hb := parse_iter_ok_eq hcb command_map_open
        (show process_loop_start_ _ = .ok _ from rfl)
      refine ⟨_, _, ha, hb, by simpa [trace_and_advance_pc] using hlt, ?_, ?_⟩
      · rw [trace_and_advance_lm]
        intro p hp
        rcases List.mem_cons.mp hp with hp | hp
        · rw [hp]; exact hc
        · exact hmarks p hp
      · have := trace_and_advance_relocate '['
          { a with loop_mark_ := a.source_index_ :: a.loop_mark_ }
          (new_index source a.source_index_)
          ((a.source_index_ :: a.loop_mark_).map (new_index source))
        rw [trace_and_advance_pc, trace_and_advance_lm]
        show _ = (trace_and_advance '[' _).relocate (new_index source (a.source_index_ + 1)) _
        rw [new_index_succ_command hc command_map_open_ne, ← this]
        rfl
    · -- `]`
      subst hclose
      have hcb : (strip source)[(a.relocate (new_index source a.source_index_)
          (a.loop_mark_.map (new_index source))).source_index_]? = some ']' :=
        strip_getElem? source _ _ hc command_map_close_ne
      cases hcell : a.stack_[a.current_]? with
      | none =>
        right; right
        have hea : process_loop_end_ a = .error (.cell_out_of_bounds, a) := by
          simp [process_loop_end_, hcell]
        have heb : process_loop_end_ (a.relocate (new_index source a.source_index_)
            (a.loop_mark_.map (new_index source)))
            = .error (.cell_out_of_bounds, a.relocate (new_index source a.source_index_)
                (a.loop_mark_.map (new_index source))) := by
          simp [process_loop_end_, BrainFuck.relocate, hcell]
        exact ⟨_, _, _, parse_iter_error hc command_map_close hea,
          parse_iter_error hcb command_map_close heb, hle, hmarks, rfl⟩
      | some v =>
        have hcases : a.loop_mark_ = [] ∨ ∃ p r, a.loop_mark_ = p :: r := by
          cases a.loop_mark_ <;> simp
        rcases hcases with hl | ⟨p, r, hl⟩
        · right; right
          have hea : process_loop_end_ a = .error (.loop_mark_empty, a) := by
            by_cases hv : v = 0 <;> simp [process_loop_end_, hcell, hl, hv]
          have heb : process_loop_end_ (a.relocate (new_index source a.source_index_)
              (a.loop_mark_.map (new_index source)))
              = .error (.loop_mark_empty, a.relocate (new_index source a.source_index_)
                  (a.loop_mark_.map (new_index source))) := by
            by_cases hv : v = 0 <;> simp [process_loop_end_, BrainFuck.relocate, hcell, hl, hv]
          exact ⟨_, _, _, parse_iter_error hc command_map_close hea,
            parse_iter_error hcb command_map_close heb, hle, hmarks, rfl⟩
        · right; left
          have hp : source[p]? = some '[' := hmarks p (by rw [hl]; simp)
          have hpl : p < source.length := by
            rcases List.getElem?_eq_some.mp hp with ⟨hlt, _⟩; exact hlt
          have hr : ∀ q ∈ r, source[q]? = some '[' := by
            intro q hq; exact hmarks q (by rw [hl]; simp [hq])
          by_cases hv : v = 0
          · have hea : process_loop_end_ a = .ok { a with loop_mark_ := r } := by
              simp [process_loop_end_, hcell, hv, hl]
            have heb : process_loop_end_ (a.relocate (new_index source a.source_index_)
                (a.loop_mark_.map (new_index source)))
                = .ok ({ a with loop_mark_ := r }.relocate
                    (new_index source a.source_index_) (r.map (new_index source))) := by
              simp [process_loop_end_, BrainFuck.relocate, hcell, hv, hl]
            have ha := parse_iter_ok_eq (s := a) hc command_map_close hea
            have hb := parse_iter_ok_eq hcb command_map_close heb
            rw [trace_and_advance_relocate] at hb
            refine ⟨_, _, ha, hb, by simpa [trace_and_advance_pc] using hlt, ?_, ?_⟩
            · rw [trace_and_advance_lm]; exact hr
            · rw [trace_and_advance_pc, trace_and_advance_lm]
              show _ = (trace_and_advance ']' _).relocate
                (new_index source (a.source_index_ + 1)) _
              rw [new_index_succ_command hc command_map_close_ne]
          · have hea : process_loop_end_ a = .ok { a with source_index_ := p } := by
              simp [process_loop_end_, hcell, hv, hl]
            have heb : process_loop_end_ (a.relocate (new_index source a.source_index_)
                (a.loop_mark_.map (new_index source)))
                = .ok ({ a with source_index_ := p }.relocate
                    (new_index source p) (a.loop_mark_.map (new_index source))) := by
              simp [process_loop_end_, BrainFuck.relocate, hcell, hv, hl]
            have ha := parse_iter_ok_eq (s := a) hc command_map_close hea
            have hb := parse_iter_ok_eq hcb command_map_close heb
            rw [trace_and_advance_relocate] at hb
            refine ⟨_, _, ha, hb, ?_, ?_, ?_⟩
            · rw [trace_and_advance_pc]; show p + 1 ≤ source.length; omega
            · rw [trace_and_advance_lm]; exact hmarks
            · rw [trace_and_advance_pc, trace_and_advance_lm]
              show _ = (trace_and_advance ']' _).relocate (new_index source (p + 1)) _
              rw [new_index_succ_command hp command_map_open_ne]
    · -- a plain handler
      have hne : command_map_ c ≠ none := by rw [hmap]; simp
      have hcb : (strip source)[(a.relocate (new_index source a.source_index_)
          (a.loop_mark_.map (new_index source))).source_index_]? = some c :=
        strip_getElem? source _ _ hc hne
      obtain ⟨hreloc, hok, herr⟩ := hplain
      have hrb := hreloc a (new_index source a.source_index_)
        (a.loop_mark_.map (new_index source))
      cases hra : hd a with
      | error e =>
        obtain ⟨f, a2⟩ := e
        right; right
        rw [hra] at hrb
        obtain ⟨hpc2, hlm2⟩ := herr a f a2 hra
        refine ⟨_, _, _, parse_iter_error hc hmap hra, parse_iter_error hcb hmap hrb,
          by rw [hpc2]; exact hle, by rw [hlm2]; exact hmarks, ?_⟩
        rw [hpc2, hlm2]
      | ok a2 =>
        right; left
        rw [hra] at hrb
        obtain ⟨hpc2, hlm2⟩ := hok a a2 hra
        have ha := parse_iter_ok_eq (s := a) hc hmap hra
        have hb := parse_iter_ok_eq hcb hmap hrb
        rw [trace_and_advance_relocate] at hb
        refine ⟨_, _, ha, hb, ?_, ?_, ?_⟩
        · rw [trace_and_advance_pc, hpc2]; omega
        · rw [trace_and_advance_lm, hlm2]; exact hmarks
        · rw [trace_and_advance_pc, trace_and_advance_lm, hpc2, hlm2,
            new_index_succ_command hc hne]

theorem strip_same_effect {source : List Char} {a b : BrainFuck} (h : Strip source a b) :
    same_effect a b := by
  obtain ⟨_, _, rfl⟩ := h
  exact ⟨rfl, rfl, rfl, rfl, rfl, rfl, rfl⟩

theorem same_effect_out_of_fuel_right {r : Outcome}
    (h : Outcome.same_effect r .out_of_fuel) : r = .out_of_fuel := by
  cases r with
  | returned a => exact h.elim
  | fault f a => exact h.elim
  | out_of_fuel => rfl

/-- A run of `source` that ends is matched, with the same fuel, by the run of `target`,
for every relation preserved by the loop evaluations in the sense of `StutterStep`. -/
theorem stutter_run_forward (source target : List Char)
    (R : BrainFuck → BrainFuck → Prop)
    (hstep : ∀ a b, R a b → StutterStep source target R a b)
    (hse : ∀ a b, R a b → same_effect a b) :
    ∀ (fuel : Nat) (a b : BrainFuck), R a b →
      parse_loop source fuel a ≠ .out_of_fuel →
      Outcome.same_effect (parse_loop source fuel a) (parse_loop target fuel b) := by
  intro fuel
  induction fuel with
  | zero => intro a b _ h; exact absurd rfl h
  | succ fuel ih =>
    intro a b hs hne
    rcases hstep a b hs with
      ⟨ha, hb⟩ | ⟨a1, ha, hs1, _, _⟩ | ⟨a1, b1, ha, hb, hs1⟩ | ⟨f, a1, b1, ha, hb, hs1⟩
    · rw [parse_loop_finished ha, parse_loop_finished hb]
      exact hse a b hs
    · rw [parse_loop_again ha] at hne ⊢
      have h1 := ih a1 b hs1 hne
      have hb : parse_loop target fuel b ≠ .out_of_fuel := by
        intro hb
        rw [hb] at h1
        exact hne (same_effect_out_of_fuel_right h1)
      rw [parse_loop_mono target 1 fuel b hb]
      exact h1
    · rw [parse_loop_again ha] at hne ⊢
      rw [parse_loop_again hb]
      exact ih a1 b1 hs1 hne
    · rw [parse_loop_failed ha, parse_loop_failed hb]
      exact ⟨rfl, hse a1 b1 hs1⟩

/-- The characters `source` skips before the next command or the end cost finitely many
iterations. -/
theorem stutter_run_backward_aux (source target : List Char)
    (R : BrainFuck → BrainFuck → Prop)
    (hstep : ∀ a b, R a b → StutterStep source target R a b)
    (hse : ∀ a b, R a b → same_effect a b) (fuel : Nat) (b : BrainFuck)
    (ih : ∀ (a1 b1 : BrainFuck), R a1 b1 →
      parse_loop target fuel b1 ≠ .out_of_fuel →
      ∃ fuel1, Outcome.same_effect (parse_loop source fuel1 a1)
        (parse_loop target fuel b1))
    (hne : parse_loop target (fuel + 1) b ≠ .out_of_fuel) :
    ∀ (n : Nat) (a : BrainFuck), source.length - a.source_index_ = n → R a b →
      ∃ fuel1, Outcome.same_effect (parse_loop source fuel1 a)
        (parse_loop target (fuel + 1) b) := by
  intro n
  induction n with
  | zero =>
    intro a hn hs
    rcases hstep a b hs with
      ⟨ha, hb⟩ | ⟨a1, ha, hs1, hlt, _⟩ | ⟨a1, b1, ha, hb, hs1⟩ | ⟨f, a1, b1, ha, hb, hs1⟩
    · exact ⟨1, by
        rw [parse_loop_finished ha, parse_loop_finished hb]; exact hse a b hs⟩
    · omega
    · rw [parse_loop_again hb] at hne ⊢
      obtain ⟨fuel1, h1⟩ := ih a1 b1 hs1 hne
      exact ⟨fuel1 + 1, by rw [parse_loop_again ha]; exact h1⟩
    · exact ⟨1, by
        rw [parse_loop_failed ha, parse_loop_failed hb]; exact ⟨rfl, hse a1 b1 hs1⟩⟩
  | succ n ihn =>
    intro a hn hs
    rcases hstep a b hs with
      ⟨ha, hb⟩ | ⟨a1, ha, hs1, hlt, hpc⟩ | ⟨a1, b1, ha, hb, hs1⟩ | ⟨f, a1, b1, ha, hb, hs1⟩
    · exact ⟨1, by
        rw [parse_loop_finished ha, parse_loop_finished hb]; exact hse a b hs⟩
    · obtain ⟨fuel1, h1⟩ := ihn a1 (by omega) hs1
      exact ⟨fuel1 + 1, by rw [parse_loop_again ha]; exact h1⟩
    · rw [parse_loop_again hb] at hne ⊢
      obtain ⟨fuel1, h1⟩ := ih a1 b1 hs1 hne
      exact ⟨fuel1 + 1, by rw [parse_loop_again ha]; exact h1⟩
    · exact ⟨1, by
        rw [parse_loop_failed ha, parse_loop_failed hb]; exact ⟨rfl, hse a1 b1 hs1⟩⟩

/-- A run of `target` that ends is matched by the run of `source`, given enough fuel. -/
theorem stutter_run_backward (source target : List Char)
    (R : BrainFuck → BrainFuck → Prop)
    (hstep : ∀ a b, R a b → StutterStep source target R a b)
    (hse : ∀ a b, R a b → same_effect a b) :
    ∀ (fuel : Nat) (a b : BrainFuck), R a b →
      parse_loop target fuel b ≠ .out_of_fuel →
      ∃ fuel1, Outcome.same_effect (parse_loop source fuel1 a)
        (parse_loop target fuel b) := by
  intro fuel
  induction fuel with
  | zero => intro a b _ h; exact absurd rfl h
  | succ fuel ih =>
    intro a b hs hne
    exact stutter_run_backward_aux source target R hstep hse fuel b ih hne _ a rfl hs

/-- One loop evaluation on `source` against `strip source` over leftover markers, when
every `]` of `source` closes a `[` of `source`. -/
theorem stripover_iter {source : List Char} (hm : closes_matched source) {L : List Nat}
    {a b : BrainFuck} (h : StripOver source L a b) :
    StutterStep source (strip source) (StripOver source L) a b := by
  obtain ⟨hle, t, ht, hlm, rfl⟩ := h
  unfold StutterStep
  cases hc : source[a.source_index_]? with
  | none =>
    left
    have hlen : source.length ≤ a.source_index_ := List.getElem?_eq_none_iff.mp hc
    refine ⟨parse_iter_end hc, parse_iter_end ?_⟩
    show (strip source)[new_index source a.source_index_]? = none
    rw [new_index_end hlen]
    simp
  | some c =>
    right
    have hlt : a.source_index_ < source.length := by
      rcases List.getElem?_eq_some.mp hc with ⟨hlt, _⟩; exact hlt
    obtain ⟨t1, ht1⟩ := closes_matched_at hm (a.source_index_ + 1) (by omega)
    have hsucc := open_marks_succ source a.source_index_ t ht
    rw [ht1, hc] at hsucc
    simp only at hsucc
    have hchain := open_marks_chain source a.source_index_ t ht
    rcases command_map_cases c with
      ⟨hnone, hno, hnc⟩ | hopen | hclose | ⟨hd, hmap, hplain, hno, hnc⟩
    · -- no handler: `source` skips the character
      left
      rw [if_neg hno, if_neg hnc] at hsucc
      refine ⟨_, parse_iter_skip hc hnone, ⟨by simpa using hlt, t, ?_, hlm, ?_⟩, hlt, rfl⟩
      · show open_marks source (a.source_index_ + 1) = some t
        rw [ht1, hsucc]
      · show _ = a.relocate (new_index source (a.source_index_ + 1)) _
        rw [new_index_succ_skip hc hnone]
    · -- `[`
      subst hopen
      right; left
      rw [if_pos rfl] at hsucc
      have hcb : (strip source)[(a.relocate (new_index source a.source_index_)
          (t.map (new_index source) ++ L)).source_index_]? = some '[' :=
        strip_getElem? source _ _ hc command_map_open_ne
      have ha := parse_iter_ok_eq (s := a) hc command_map_open
        (show process_loop_start_ a = .ok _ from rfl)
      have hb := parse_iter_ok_eq hcb command_map_open
        (show process_loop_start_ _ = .ok _ from rfl)
      refine ⟨_, _, ha, hb, by simpa [trace_and_advance_pc] using hlt,
        a.source_index_ :: t, ?_, ?_, ?_⟩
      · rw [trace_and_advance_pc]
        show open_marks source (a.source_index_ + 1) = _
        rw [ht1, hsucc]
      · rw [trace_and_advance_lm]
        show a.source_index_ :: a.loop_mark_ = _
        rw [hlm]; rfl
      · have := trace_and_advance_relocate '['
          { a with loop_mark_ := a.source_index_ :: a.loop_mark_ }
          (new_index source a.source_index_)
          ((a.source_index_ :: t).map (new_index source) ++ L)
        rw [trace_and_advance_pc]
        show _ = (trace_and_advance '[' _).relocate (new_index source (a.source_index_ + 1)) _
        rw [new_index_succ_command hc command_map_open_ne, ← this]
        rfl
    · -- `]`
      subst hclose
      rw [if_neg (by decide), if_pos rfl] at hsucc
      have hcb : (strip source)[(a.relocate (new_index source a.source_index_)
          (t.map (new_index source) ++ L)).source_index_]? = some ']' :=
        strip_getElem? source _ _ hc command_map_close_ne
      cases t with
      | nil => simp [pop_mark] at hsucc
      | cons p r =>
        simp only [pop_mark, Option.some.injEq] at hsucc
        subst hsucc
        cases hcell : a.stack_[a.current_]? with
        | none =>
          right; right
          have hea : process_loop_end_ a = .error (.cell_out_of_bounds, a) := by
            simp [process_loop_end_, hcell]
          have heb : process_loop_end_ (a.relocate (new_index source a.source_index_)
              ((p :: t1).map (new_index source) ++ L))
              = .error (.cell_out_of_bounds, a.relocate (new_index source a.source_index_)
                  ((p :: t1).map (new_index source) ++ L)) := by
            simp [process_loop_end_, BrainFuck.relocate, hcell]
          exact ⟨_, _, _, parse_iter_error hc command_map_close hea,
            parse_iter_error hcb command_map_close heb, hle, p :: t1, ht, hlm, rfl⟩
        | some v =>
          right; left
          obtain ⟨hpo, hpm, _⟩ := hchain
          have hpl : p < source.length := by
            rcases List.getElem?_eq_some.mp hpo with ⟨hlt, _⟩; exact hlt
          by_cases hv : v = 0
          · have hea : process_loop_end_ a = .ok { a with loop_mark_ := t1 ++ L } := by
              simp [process_loop_end_, hcell, hv, hlm]
            have heb : process_loop_end_ (a.relocate (new_index source a.source_index_)
                ((p :: t1).map (new_index source) ++ L))
                = .ok ({ a with loop_mark_ := t1 ++ L }.relocate
                    (new_index source a.source_index_)
                    (t1.map (new_index source) ++ L)) := by
              simp [process_loop_end_, BrainFuck.relocate, hcell, hv]
            have ha := parse_iter_ok_eq (s := a) hc command_map_close hea
            have hb := parse_iter_ok_eq hcb command_map_close heb
            rw [trace_and_advance_relocate] at hb
            refine ⟨_, _, ha, hb, by simpa [trace_and_advance_pc] using hlt, t1, ?_, ?_, ?_⟩
            · rw [trace_and_advance_pc]; exact ht1
            · rw [trace_and_advance_lm]
            · rw [trace_and_advance_pc]
              show _ = (trace_and_advance ']' _).relocate
                (new_index source (a.source_index_ + 1)) _
              rw [new_index_succ_command hc command_map_close_ne]
          · have hea : process_loop_end_ a = .ok { a with source_index_ := p } := by
              simp [process_loop_end_, hcell, hv, hlm]
            have heb : process_loop_end_ (a.relocate (new_index source a.source_index_)
                ((p :: t1).map (new_index source) ++ L))
                = .ok ({ a with source_index_ := p }.relocate (new_index source p)
                    ((p :: t1).map (new_index source) ++ L)) := by
              simp [process_loop_end_, BrainFuck.relocate, hcell, hv]
            have ha := parse_iter_ok_eq (s := a) hc command_map_close hea
            have hb := parse_iter_ok_eq hcb command_map_close heb
            rw [trace_and_advance_relocate] at hb
            refine ⟨_, _, ha, hb, ?_, p :: t1, ?_, ?_, ?_⟩
            · rw [trace_and_advance_pc]; show p + 1 ≤ source.length; omega
            · rw [trace_and_advance_pc]; exact hpm
            · rw [trace_and_advance_lm]; exact hlm
            · rw [trace_and_advance_pc]
              show _ = (trace_and_advance ']' _).relocate (new_index source (p + 1)) _
              rw [new_index_succ_command hpo command_map_open_ne]
    · -- a plain handler
      rw [if_neg hno, if_neg hnc] at hsucc
      have hne : command_map_ c ≠ none := by rw [hmap]; simp
      have hcb : (strip source)[(a.relocate (new_index source a.source_index_)
          (t.map (new_index source) ++ L)).source_index_]? = some c :=
        strip_getElem? source _ _ hc hne
      obtain ⟨hreloc, hok, herr⟩ := hplain
      have hrb := hreloc a (new_index source a.source_index_)
        (t.map (new_index source) ++ L)
      cases hra : hd a with
      | error e =>
        obtain ⟨f, a2⟩ := e
        right; right
        rw [hra] at hrb
        obtain ⟨hpc2, hlm2⟩ := herr a f a2 hra
        refine ⟨_, _, _, parse_iter_error hc hmap hra, parse_iter_error hcb hmap hrb,
          by rw [hpc2]; exact hle, t, by rw [hpc2]; exact ht, by rw [hlm2]; exact hlm, ?_⟩
        rw [hpc2]
      | ok a2 =>
        right; left
        rw [hra] at hrb
        obtain ⟨hpc2, hlm2⟩ := hok a a2 hra
        have ha := parse_iter_ok_eq (s := a) hc hmap hra
        have hb := parse_iter_ok_eq hcb hmap hrb
        rw [trace_and_advance_relocate] at hb
        refine ⟨_, _, ha, hb, ?_, t, ?_, ?_, ?_⟩
        · rw [trace_and_advance_pc, hpc2]; omega
        · rw [trace_and_advance_pc, hpc2, ht1, hsucc]
        · rw [trace_and_advance_lm, hlm2]; exact hlm
        · rw [trace_and_advance_pc, hpc2, new_index_succ_command hc hne]

theorem stripover_same_effect {source : List Char} {L : List Nat} {a b : BrainFuck}
    (h : StripOver source L a b) : same_effect a b := by
  obtain ⟨_, t, _, _, rfl⟩ := h
  exact ⟨rfl, rfl, rfl, rfl, rfl, rfl, rfl⟩

/-- C6, as stated, fails for an initial state with a leftover loop marker and a source
with a `]` that no `[` of the source opens.  A fresh one-cell interpreter that ran `aa[`
has the loop stack `[2]`.  From that state `++x.-]` emits the bytes 2 and 1, while the
same source without the `x`, `++.-]`, emits the byte 2 only: the nonzero `]` jumps to
index 3, which is `.` in the one source and `-` in the other. -/
theorem C6_counterexample :
    parse ['a', 'a', '['] 4 (BrainFuck.new 1 false [])
      = .returned { BrainFuck.new 1 false [] with loop_mark_ := [2], source_index_ := 3 } ∧
    strip ['+', '+', 'x', '.', '-', ']'] = ['+', '+', '.', '-', ']'] ∧
    parse ['+', '+', 'x', '.', '-', ']'] 10
        { BrainFuck.new 1 false [] with loop_mark_ := [2], source_index_ := 3 }
      = .returned { BrainFuck.new 1 false [] with source_index_ := 6, cout := [2, 1] } ∧
    parse (strip ['+', '+', 'x', '.', '-', ']']) 10
        { BrainFuck.new 1 false [] with loop_mark_ := [2], source_index_ := 3 }
      = .returned { BrainFuck.new 1 false [] with source_index_ := 5, cout := [2] } := by
  decide

/-- C6, amended: let the loop stack be empty at entry, or let every `]` of the source
close an earlier `[` of the same source (leftover loop markers are then allowed).  Then
`parse` of the source and `parse` of the source without its unrecognized characters
behave alike, loops included.  If the first ends (returns or faults) with some fuel, the
second ends in the same way with that fuel; if the second ends, the first ends in the
same way given enough fuel; and the states they end in agree on tape, cursor, emitted
output, remaining input and the trace members. -/
theorem C6_unrecognized_characters_are_no_ops (source : List Char) (s : BrainFuck)
    (hok : s.loop_mark_ = [] ∨ closes_matched source) :
    (∀ fuel, parse source fuel s ≠ .out_of_fuel →
      Outcome.same_effect (parse source fuel s) (parse (strip source) fuel s)) ∧
    (∀ fuel, parse (strip source) fuel s ≠ .out_of_fuel →
      ∃ fuel1, Outcome.same_effect (parse source fuel1 s) (parse (strip source) fuel s)) := by
  rcases hok with hempty | hm
  · have hs : Strip source { s with source_index_ := 0 } { s with source_index_ := 0 } := by
      refine ⟨Nat.zero_le _, ?_, ?_⟩
      · intro p hp
        rw [show ({ s with source_index_ := 0 } : BrainFuck).loop_mark_ = s.loop_mark_
          from rfl, hempty] at hp
        cases hp
      · show _ = ({ s with source_index_ := 0 } : BrainFuck).relocate 0
          (s.loop_mark_.map (new_index source))
        rw [hempty]
        show _ = ({ s with source_index_ := 0, loop_mark_ := [] } : BrainFuck)
        rw [← hempty]
    exact ⟨fun fuel h =>
        stutter_run_forward source (strip source) (Strip source)
          (fun _ _ h => strip_iter h) (fun _ _ h => strip_same_effect h) fuel _ _ hs h,
      fun fuel h =>
        stutter_run_backward source (strip source) (Strip source)
          (fun _ _ h => strip_iter h) (fun _ _ h => strip_same_effect h) fuel _ _ hs h⟩
  · have hs : StripOver source s.loop_mark_
        { s with source_index_ := 0 } { s with source_index_ := 0 } :=
      ⟨Nat.zero_le _, [], rfl, rfl, rfl⟩
    exact ⟨fun fuel h =>
        stutter_run_forward source (strip source) (StripOver source s.loop_mark_)
          (fun _ _ h => stripover_iter hm h) (fun _ _ h => stripover_same_effect h)
          fuel _ _ hs h,
      fun fuel h =>
        stutter_run_backward source (strip source) (StripOver source s.loop_mark_)
          (fun _ _ h => stripover_iter hm h) (fun _ _ h => stripover_same_effect h)
          fuel _ _ hs h⟩

/-- Witness of C6 (amended): the source `+a+[b.-]c[`, whose `]` is closed, on a one-cell
interpreter with the leftover markers `[7, 3]`: it ends like `++[.-][`, both emit the
bytes 2 and 1. -/
theorem C6_unrecognized_characters_are_no_ops_witness :
    closes_matched ['+', 'a', '+', '[', 'b', '.', '-', ']', 'c', '['] ∧
    strip ['+', 'a', '+', '[', 'b', '.', '-', ']', 'c', '[']
      = ['+', '+', '[', '.', '-', ']', '['] ∧
    parse ['+', 'a', '+', '[', 'b', '.', '-', ']', 'c', '['] 20
        { BrainFuck.new 1 false [] with loop_mark_ := [7, 3] }
      = .returned { BrainFuck.new 1 false [] with
          loop_mark_ := [9, 7, 3], source_index_ := 10, cout := [2, 1] } ∧
    Outcome.same_effect
      (parse ['+', 'a', '+', '[', 'b', '.', '-', ']', 'c', '['] 20
        { BrainFuck.new 1 false [] with loop_mark_ := [7, 3] })
      (parse (strip ['+', 'a', '+', '[', 'b', '.', '-', ']', 'c', '[']) 20
        { BrainFuck.new 1 false [] with loop_mark_ := [7, 3] }) :=
  ⟨by decide, by decide, by decide,
    (C6_unrecognized_characters_are_no_ops
      ['+', 'a', '+', '[', 'b', '.', '-', ']', 'c', '[']
      { BrainFuck.new 1 false [] with loop_mark_ := [7, 3] } (Or.inr (by decide))).1 20
      (by decide)⟩

/-! ## Construction, and the two loop commands taken on their own -/

/-- C13: for every size `N` (in particular every `N ≥ 1`) and either trace setting, the
constructor yields a tape of exactly `N` cells, all 0, the cursor on index 0, an empty loop
stack and program counter 0; the default constructor gives 16 cells; and `reset_`, which
the constructor calls, puts any state into that shape without changing the number of
cells. -/
theorem C13_fresh_interpreter (N : Nat) (dbg : Bool) (cin : List (List Char)) :
    (BrainFuck.new N dbg cin).stack_ = List.replicate N 0 ∧
    (BrainFuck.new N dbg cin).stacksize_ = N ∧
    (∀ i, i < N → (BrainFuck.new N dbg cin).stack_[i]? = some 0) ∧
    (BrainFuck.new N dbg cin).current_ = 0 ∧
    (BrainFuck.new N dbg cin).loop_mark_ = [] ∧
    (BrainFuck.new N dbg cin).source_index_ = 0 ∧
    (BrainFuck.default cin).stacksize_ = 16 ∧
    (BrainFuck.default cin).stack_ = List.replicate 16 0 ∧
    (∀ s : BrainFuck, s.reset_.stack_ = List.replicate s.stacksize_ 0 ∧
      s.reset_.stacksize_ = s.stacksize_ ∧ s.reset_.current_ = 0 ∧
      s.reset_.loop_mark_ = [] ∧ s.reset_.source_index_ = 0) := by
  refine ⟨?_, ?_, ?_, rfl, rfl, rfl, ?_, ?_, ?_⟩
  · simp [BrainFuck.new, BrainFuck.reset_, BrainFuck.stacksize_]
  · simp [BrainFuck.new, BrainFuck.reset_, BrainFuck.stacksize_]
  · intro i hi
    simp [BrainFuck.new, BrainFuck.reset_, BrainFuck.stacksize_, List.getElem?_replicate, hi]
  · simp [BrainFuck.default, BrainFuck.new, BrainFuck.reset_, BrainFuck.stacksize_]
  · simp [BrainFuck.default, BrainFuck.new, BrainFuck.reset_, BrainFuck.stacksize_]
  · intro s
    refine ⟨rfl, ?_, rfl, rfl, rfl⟩
    simp [BrainFuck.reset_, BrainFuck.stacksize_]

/-- C16: one evaluation of the loop of `parse` at a `]`, with the cursor on a cell holding
`v` and a loop stack whose top is `p`.  The evaluation completes and leaves tape and
cursor unchanged.  If `v` is nonzero the loop stack is unchanged and the program counter
becomes `p + 1`, the index right after the `[` at `p`, so that character is dispatched
next.  If `v` is zero exactly the top entry is removed and the program counter moves to
the character after this `]`. -/
theorem C16_loop_end_step (source : List Char) (s : BrainFuck) (p v : Nat) (r : List Nat)
    (htok : source[s.source_index_]? = some ']') (hlm : s.loop_mark_ = p :: r)
    (hcell : s.stack_[s.current_]? = some v) :
    ∃ s1, parse_iter source s = .again s1 ∧
      s1.stack_ = s.stack_ ∧ s1.current_ = s.current_ ∧
      (v ≠ 0 → s1.loop_mark_ = p :: r ∧ s1.source_index_ = p + 1) ∧
      (v = 0 → s1.loop_mark_ = r ∧ s1.source_index_ = s.source_index_ + 1) := by
  by_cases hv : v = 0
  · have hend : process_loop_end_ s = .ok { s with loop_mark_ := r } := by
      simp [process_loop_end_, hcell, hlm, hv]
    obtain ⟨s1, hit, hst, hcur, hl, hpc⟩ := parse_iter_ok_core htok command_map_close hend
    exact ⟨s1, hit, hst, hcur, fun h => absurd hv h, fun _ => ⟨hl, hpc⟩⟩
  · have hend : process_loop_end_ s = .ok { s with source_index_ := p } := by
      simp [process_loop_end_, hcell, hlm, hv]
    obtain ⟨s1, hit, hst, hcur, hl, hpc⟩ := parse_iter_ok_core htok command_map_close hend
    exact ⟨s1, hit, hst, hcur, fun _ => ⟨by rw [hl]; exact hlm, hpc⟩, fun h => absurd h hv⟩

/-- Witness of C16: in `+[-]` with the cell at 1 the `]` at index 3 finds the marker 1 on
the stack and 0 in the cell. -/
theorem C16_loop_end_step_witness :
    ['+', '[', '-', ']'][3]? = some ']' ∧
    ∃ s1, parse_iter ['+', '[', '-', ']']
        { BrainFuck.new 1 false [] with loop_mark_ := [1], source_index_ := 3 }
        = .again s1 ∧
      s1.stack_ = [0] ∧ s1.current_ = 0 ∧ s1.loop_mark_ = [] ∧ s1.source_index_ = 4 := by
  refine ⟨by decide, ?_⟩
  obtain ⟨s1, h1, h2, h3, _, h5⟩ :=
    C16_loop_end_step ['+', '[', '-', ']']
      { BrainFuck.new 1 false [] with loop_mark_ := [1], source_index_ := 3 } 1 0 []
      (by decide) (by decide) (by decide)
  exact ⟨s1, h1, h2, h3, (h5 rfl).1, (h5 rfl).2⟩

theorem command_map_gt : command_map_ '>' = some process_ref_add_ := by
  simp [command_map_]

/-- C18: one evaluation of the loop of `parse` at a `[` at index `i = source_index_`
completes in every state, whatever the cell at the cursor (even with the cursor off the
tape): it pushes exactly `i` on the loop stack, leaves tape and cursor unchanged and
moves the program counter to `i + 1`, so no character is skipped and the body is entered
even when the cell is 0.  On a fresh tape of `N ≥ 2` cells `[+>]` therefore returns with
cell 0 equal to 1 (the cursor on cell 1, the loop stack empty). -/
theorem C18_loop_start_step (source : List Char) (s : BrainFuck)
    (htok : source[s.source_index_]? = some '[')
    (N : Nat) (hN : 2 ≤ N) (dbg : Bool) (cin : List (List Char)) (fuel : Nat)
    (hf : 5 ≤ fuel) :
    (∃ s1, parse_iter source s = .again s1 ∧
      s1.loop_mark_ = s.source_index_ :: s.loop_mark_ ∧
      s1.stack_ = s.stack_ ∧ s1.current_ = s.current_ ∧
      s1.source_index_ = s.source_index_ + 1) ∧
    (∃ s2, parse ['[', '+', '>', ']'] fuel (BrainFuck.new N dbg cin) = .returned s2 ∧
      s2.stack_[0]? = some 1 ∧ s2.current_ = 1 ∧ s2.loop_mark_ = []) := by
  constructor
  · obtain ⟨s1, hit, hst, hcur, hl, hpc⟩ :=
      parse_iter_ok_core htok command_map_open
        (show process_loop_start_ s
          = .ok { s with loop_mark_ := s.source_index_ :: s.loop_mark_ } from rfl)
    exact ⟨s1, hit, hl, hst, hcur, hpc⟩
  · obtain ⟨r, rfl⟩ : ∃ r, fuel = r + 1 + 1 + 1 + 1 + 1 := ⟨fuel - 5, by omega⟩
    have hlen : 0 < (List.replicate N (0 : Nat)).length := by simp; omega
    have hcell0 : (List.replicate N 0)[0]? = some 0 := by
      simp [List.getElem?_replicate]; omega
    -- `[`
    obtain ⟨s1, hit1, hst1, hcur1, hlm1, hpc1⟩ :=
      parse_iter_ok_core
        (show ['[', '+', '>', ']'][({ BrainFuck.new N dbg cin with
          source_index_ := 0 } : BrainFuck).source_index_]? = some '[' from rfl)
        command_map_open (show process_loop_start_ _ = .ok _ from rfl)
    simp only at hst1 hcur1 hlm1 hpc1
    have hst1' : s1.stack_ = List.replicate N 0 := by
      rw [hst1]; simp [BrainFuck.new, BrainFuck.reset_, BrainFuck.stacksize_]
    have hcur1' : s1.current_ = 0 := by
      rw [hcur1]; rfl
    have hlm1' : s1.loop_mark_ = [0] := by
      rw [hlm1]; rfl
    have hpc1' : s1.source_index_ = 1 := by
      rw [hpc1]
    -- `+`
    have hadd : process_val_add_ s1
        = .ok { s1 with stack_ := s1.stack_.set s1.current_ ((0 + 1) % 256) } := by
      simp [process_val_add_, hst1', hcur1', hcell0]
    obtain ⟨s2, hit2, hst2, hcur2, hlm2, hpc2⟩ :=
      parse_iter_ok_core
        (show ['[', '+', '>', ']'][s1.source_index_]? = some '+' from by rw [hpc1']; rfl)
        command_map_plus hadd
    simp only at hst2 hcur2 hlm2 hpc2
    rw [hst1', hcur1'] at hst2
    rw [hcur1'] at hcur2
    rw [hlm1'] at hlm2
    rw [hpc1'] at hpc2
    -- `>`
    have hmove : process_ref_add_ s2 = .ok { s2 with current_ := s2.current_ + 1 } := by
      have : s2.current_ < s2.stacksize_ := by
        rw [hcur2]; unfold BrainFuck.stacksize_; rw [hst2]; simp; omega
      simp [process_ref_add_, this]
    obtain ⟨s3, hit3, hst3, hcur3, hlm3, hpc3⟩ :=
      parse_iter_ok_core
        (show ['[', '+', '>', ']'][s2.source_index_]? = some '>' from by rw [hpc2]; rfl)
        command_map_gt hmove
    simp only at hst3 hcur3 hlm3 hpc3
    rw [hst2] at hst3
    rw [hcur2] at hcur3
    rw [hlm2] at hlm3
    rw [hpc2] at hpc3
    -- `]`
    have hcell3 : s3.stack_[s3.current_]? = some 0 := by
      rw [hst3, hcur3]
      rw [List.getElem?_set_ne (by omega)]
      simp [List.getElem?_replicate]; omega
    have hend : process_loop_end_ s3 = .ok { s3 with loop_mark_ := [] } := by
      simp [process_loop_end_, hcell3, hlm3]
    obtain ⟨s4, hit4, hst4, hcur4, hlm4, hpc4⟩ :=
      parse_iter_ok_core
        (show ['[', '+', '>', ']'][s3.source_index_]? = some ']' from by rw [hpc3]; rfl)
        command_map_close hend
    simp only at hst4 hcur4 hlm4 hpc4
    rw [hst3] at hst4
    rw [hcur3] at hcur4
    rw [hpc3] at hpc4
    have hfin : parse_iter ['[', '+', '>', ']'] s4 = .finished s4 :=
      parse_iter_end (by rw [hpc4]; rfl)
    refine ⟨s4, ?_, ?_, hcur4, hlm4⟩
    · unfold parse
      rw [parse_loop_again hit1, parse_loop_again hit2, parse_loop_again hit3,
        parse_loop_again hit4, parse_loop_finished hfin]
    · rw [hst4]
      simp [List.getElem?_set_self hlen]

/-- Witness of C18: the `[` of `[+>]` on the default tape, and the whole run. -/
theorem C18_loop_start_step_witness :
    ['[', '+', '>', ']'][(BrainFuck.default []).source_index_]? = some '[' ∧
    2 ≤ 16 ∧ 5 ≤ 5 ∧
    ∃ s2, parse ['[', '+', '>', ']'] 5 (BrainFuck.new 16 false []) = .returned s2 ∧
      s2.stack_[0]? = some 1 ∧ s2.current_ = 1 ∧ s2.loop_mark_ = [] :=
  ⟨by decide, by decide, by decide,
    (C18_loop_start_step ['[', '+', '>', ']'] (BrainFuck.default []) (by decide)
      16 (by decide) false [] 5 (by decide)).2⟩

/-! ## Reachable states -/

/-- The four ways one evaluation of the loop of `parse` can go. -/
theorem parse_iter_cases (source : List Char) (s : BrainFuck) :
    (source[s.source_index_]? = none ∧ parse_iter source s = .finished s) ∨
    (∃ c, source[s.source_index_]? = some c ∧ command_map_ c = none ∧
      parse_iter source s = .again { s with source_index_ := s.source_index_ + 1 }) ∨
    (∃ c h s1, source[s.source_index_]? = some c ∧ command_map_ c = some h ∧
      h s = .ok s1 ∧ parse_iter source s = .again (trace_and_advance c s1)) ∨
    (∃ c h f s1, source[s.source_index_]? = some c ∧ command_map_ c = some h ∧
      h s = .error (f, s1) ∧ parse_iter source s = .failed f s1) := by
  cases hc : source[s.source_index_]? with
  | none => exact Or.inl ⟨rfl, parse_iter_end hc⟩
  | some c =>
    cases hm : command_map_ c with
    | none => exact Or.inr (Or.inl ⟨c, rfl, hm, parse_iter_skip hc hm⟩)
    | some h =>
      cases hs : h s with
      | ok s1 =>
        exact Or.inr (Or.inr (Or.inl ⟨c, h, s1, rfl, hm, hs, parse_iter_ok_eq hc hm hs⟩))
      | error e =>
        obtain ⟨f, s1⟩ := e
        exact Or.inr (Or.inr (Or.inr ⟨c, h, f, s1, rfl, hm, hs, parse_iter_error hc hm hs⟩))

theorem trace_and_advance_stack (token : Char) (s : BrainFuck) :
    (trace_and_advance token s).stack_ = s.stack_ := by
  unfold trace_and_advance
  cases h : s.should_print_stack_ <;> simp [h, print_stack_]

theorem trace_and_advance_current (token : Char) (s : BrainFuck) :
    (trace_and_advance token s).current_ = s.current_ := by
  unfold trace_and_advance
  cases h : s.should_print_stack_ <;> simp [h, print_stack_]

/-- The handlers of the table keep the cursor within the offsets `0 .. stacksize_`,
whether they return or fault. -/
theorem command_cursor_le {c : Char} {h : BrainFuck → Step}
    (hm : command_map_ c = some h) (s : BrainFuck) (hs : s.current_ ≤ s.stacksize_) :
    (∀ s1, h s = .ok s1 → s1.current_ ≤ s1.stacksize_) ∧
    (∀ f s1, h s = .error (f, s1) → s1.current_ ≤ s1.stacksize_) := by
  unfold BrainFuck.stacksize_ at hs ⊢
  unfold command_map_ at hm
  split_ifs at hm <;> cases hm
  · -- `>`
    constructor
    · intro s1 h1
      simp only [process_ref_add_, BrainFuck.stacksize_] at h1
      split at h1 <;> cases h1
      · show s.current_ + 1 ≤ s.stack_.length; omega
      · exact Nat.zero_le _
    · intro f s1 h1
      simp only [process_ref_add_] at h1
      split at h1 <;> cases h1
  · -- `<`
    constructor
    · intro s1 h1
      simp only [process_ref_sub_, BrainFuck.stacksize_] at h1
      split at h1 <;> cases h1
      · exact Nat.le_refl _
      · show s.current_ - 1 ≤ s.stack_.length; omega
    · intro f s1 h1
      simp only [process_ref_sub_] at h1
      split at h1 <;> cases h1
  · -- `+`
    constructor
    · intro s1 h1
      simp only [process_val_add_] at h1
      split at h1 <;> cases h1
      show s.current_ ≤ (s.stack_.set _ _).length
      rw [List.length_set]; exact hs
    · intro f s1 h1
      simp only [process_val_add_] at h1
      split at h1 <;> cases h1
      exact hs
  · -- `-`
    constructor
    · intro s1 h1
      simp only [process_val_sub_] at h1
      split at h1 <;> cases h1
      show s.current_ ≤ (s.stack_.set _ _).length
      rw [List.length_set]; exact hs
    · intro f s1 h1
      simp only [process_val_sub_] at h1
      split at h1 <;> cases h1
      exact hs
  · -- `.`
    constructor
    · intro s1 h1
      simp only [process_val_put_] at h1
      split at h1
      · split at h1 <;> (cases h1; exact hs)
      · cases h1
    · intro f s1 h1
      simp only [process_val_put_] at h1
      split at h1
      · split at h1 <;> cases h1
      · cases h1; exact hs
  · -- `,`
    constructor
    · intro s1 h1
      simp only [process_val_get_] at h1
      split at h1
      · cases h1
      · split at h1 <;> cases h1
        show s.current_ ≤ (s.stack_.set _ _).length
        rw [List.length_set]; exact hs
    · intro f s1 h1
      simp only [process_val_get_] at h1
      split at h1
      · cases h1; exact hs
      · split at h1 <;> cases h1
        exact hs
  · -- `[`
    constructor
    · intro s1 h1
      cases h1; exact hs
    · intro f s1 h1
      cases h1
  · -- `]`
    constructor
    · intro s1 h1
      simp only [process_loop_end_] at h1
      split at h1
      · cases h1
      · split at h1 <;> split at h1 <;> cases h1 <;> exact hs
    · intro f s1 h1
      simp only [process_loop_end_] at h1
      split at h1
      · cases h1; exact hs
      · split at h1 <;> split at h1 <;> cases h1 <;> exact hs

/-- In every reachable state the cursor is one of the offsets `0 .. stacksize_`. -/
theorem reachable_cursor_le {s : BrainFuck} (h : Reachable s) :
    s.current_ ≤ s.stacksize_ := by
  induction h with
  | fresh N dbg cin => exact Nat.zero_le _
  | enter s _ ih => exact ih
  | again source s s1 _ hit ih =>
    rcases parse_iter_cases source s with
      ⟨_, h1⟩ | ⟨c, _, _, h1⟩ | ⟨c, h, s2, _, hm, hs, h1⟩ | ⟨c, h, f, s2, _, _, _, h1⟩
    · rw [h1] at hit; cases hit
    · rw [h1] at hit; cases hit; exact ih
    · rw [h1] at hit; cases hit
      unfold BrainFuck.stacksize_
      rw [trace_and_advance_current, trace_and_advance_stack]
      exact (command_cursor_le hm s ih).1 _ hs
    · rw [h1] at hit; cases hit
  | failed source s s1 f _ hit ih =>
    rcases parse_iter_cases source s with
      ⟨_, h1⟩ | ⟨c, _, _, h1⟩ | ⟨c, h, s2, _, _, _, h1⟩ | ⟨c, h, g, s2, _, hm, hs, h1⟩
    · rw [h1] at hit; cases hit
    · rw [h1] at hit; cases hit
    · rw [h1] at hit; cases hit
    · rw [h1] at hit; cases hit
      exact (command_cursor_le hm s ih).2 _ _ hs

/-- C19: in every state reachable from construction (any tape size, in particular every
`N ≥ 1`) `>` followed by `<` gives back the very same state, and so does `<` followed by
`>`; in particular the cursor is where it was. -/
theorem C19_cursor_moves_are_inverse (s : BrainFuck) (hr : Reachable s) :
    (∃ s1, process_ref_add_ s = .ok s1 ∧ process_ref_sub_ s1 = .ok s) ∧
    (∃ s1, process_ref_sub_ s = .ok s1 ∧ process_ref_add_ s1 = .ok s) := by
  have hle := reachable_cursor_le hr
  unfold BrainFuck.stacksize_ at hle
  constructor
  · by_cases h : s.current_ < s.stack_.length
    · refine ⟨{ s with current_ := s.current_ + 1 }, by simp [process_ref_add_,
        BrainFuck.stacksize_, h], ?_⟩
      simp [process_ref_sub_]
    · refine ⟨{ s with current_ := 0 }, by simp [process_ref_add_, BrainFuck.stacksize_, h],
        ?_⟩
      have e : s.stack_.length = s.current_ := by omega
      simp [process_ref_sub_, BrainFuck.stacksize_, e]
  · by_cases h : s.current_ = 0
    · refine ⟨{ s with current_ := s.stack_.length }, by simp [process_ref_sub_,
        BrainFuck.stacksize_, h], ?_⟩
      simp only [process_ref_add_, BrainFuck.stacksize_, Nat.lt_irrefl, if_false]
      rw [← h]
    · refine ⟨{ s with current_ := s.current_ - 1 }, by simp [process_ref_sub_, h], ?_⟩
      have h1 : s.current_ - 1 < s.stack_.length := by omega
      have h2 : s.current_ - 1 + 1 = s.current_ := by omega
      simp [process_ref_add_, BrainFuck.stacksize_, h1, h2]

/-- Witness of C19: the freshly constructed one-cell interpreter. -/
theorem C19_cursor_moves_are_inverse_witness :
    Reachable (BrainFuck.new 1 false []) ∧
    (∃ s1, process_ref_add_ (BrainFuck.new 1 false []) = .ok s1 ∧
      process_ref_sub_ s1 = .ok (BrainFuck.new 1 false [])) ∧
    (∃ s1, process_ref_sub_ (BrainFuck.new 1 false []) = .ok s1 ∧
      process_ref_add_ s1 = .ok (BrainFuck.new 1 false [])) :=
  ⟨Reachable.fresh 1 false [],
    C19_cursor_moves_are_inverse (BrainFuck.new 1 false []) (Reachable.fresh 1 false [])⟩

/-! ## C17: the loop stack is the syntactic bracket stack -/

theorem open_marks_lt (source : List Char) (i : Nat) :
    ∀ st, open_marks source i = some st → ∀ p ∈ st, p < i := by
  induction i with
  | zero =>
    intro st h p hp
    simp only [open_marks, Option.some.injEq] at h
    subst h
    cases hp
  | succ i ih =>
    intro st h p hp
    obtain ⟨st0, h0⟩ := open_marks_pred h
    have hb := ih st0 h0
    have hs := open_marks_succ source i st0 h0
    rw [h] at hs
    cases hg : source[i]? with
    | none =>
      simp only [hg, Option.some.injEq] at hs
      subst hs
      have := hb p hp; omega
    | some c =>
      simp only [hg] at hs
      by_cases h1 : c = '['
      · rw [if_pos h1] at hs
        simp only [Option.some.injEq] at hs
        subst hs
        rcases List.mem_cons.mp hp with hp | hp
        · omega
        · have := hb p hp; omega
      · by_cases h2 : c = ']'
        · rw [if_neg h1, if_pos h2] at hs
          cases st0 with
          | nil => simp [pop_mark] at hs
          | cons q r =>
            simp only [pop_mark, Option.some.injEq] at hs
            subst hs
            have := hb p (List.mem_cons_of_mem q hp); omega
        · rw [if_neg h1, if_neg h2] at hs
          simp only [Option.some.injEq] at hs
          subst hs
          have := hb p hp; omega

theorem sim_parse_state {source : List Char} (hm : closes_matched source) :
    ∀ (k : Nat) (a b a1 : BrainFuck),
      Sim source ([] : List Char).length [] [] a b → parse_state source k a = some a1 →
      ∃ b1, Sim source ([] : List Char).length [] [] a1 b1 := by
  intro k
  induction k with
  | zero =>
    intro a b a1 hs h
    simp only [parse_state, Option.some.injEq] at h
    subst h
    exact ⟨b, hs⟩
  | succ k ih =>
    intro a b a1 hs h
    cases hi : parse_iter source a with
    | again a2 =>
      simp only [parse_state, hi] at h
      obtain ⟨b2, _, hs2⟩ := (sim_iter [] [] hm hs).1 a2 hi
      exact ih a2 b2 a1 hs2 h
    | finished a2 => simp [parse_state, hi] at h
    | failed f a2 => simp [parse_state, hi] at h

/-- C17: let the brackets of `source` be properly matched and let `parse` start with an
empty loop stack.  At the start of every evaluation of its loop the loop stack is exactly
the list of the indices of the `[` that are open at the program counter, innermost first
(`open_marks`).  Hence, whenever the character about to be executed is a `]` at index `j`,
the loop stack is not empty and its top is the index `p < j` of the `[` that syntactically
matches `j`. -/
theorem C17_bracket_invariant (source : List Char) (hm : brackets_matched source)
    (s : BrainFuck) (hempty : s.loop_mark_ = []) (k : Nat) (s1 : BrainFuck)
    (hk : parse_state source k { s with source_index_ := 0 } = some s1) :
    open_marks source s1.source_index_ = some s1.loop_mark_ ∧
    (source[s1.source_index_]? = some ']' →
      ∃ p r, s1.loop_mark_ = p :: r ∧ matching_open source s1.source_index_ = some p ∧
        source[p]? = some '[' ∧ p < s1.source_index_) := by
  have hcm : closes_matched source := by unfold closes_matched; rw [hm]; rfl
  have hs0 : Sim source ([] : List Char).length [] []
      { s with source_index_ := 0 } { s with source_index_ := 0 } := by
    refine ⟨Nat.zero_le _, [], rfl, hempty, ?_⟩
    show _ = ({ s with source_index_ := 0, loop_mark_ := [] } : BrainFuck)
    rw [← hempty]
  obtain ⟨b1, hle, t, ht, hl, _⟩ := sim_parse_state hcm k _ _ s1 hs0 hk
  rw [List.append_nil] at hl
  rw [← hl] at ht
  refine ⟨ht, ?_⟩
  intro hclose
  have hlt : s1.source_index_ < source.length := by
    rcases List.getElem?_eq_some.mp hclose with ⟨h, _⟩; exact h
  obtain ⟨t1, ht1⟩ := closes_matched_at hcm (s1.source_index_ + 1) (by omega)
  have hsucc := open_marks_succ source s1.source_index_ _ ht
  rw [ht1, hclose] at hsucc
  simp only at hsucc
  rw [if_pos trivial] at hsucc
  have hcases : s1.loop_mark_ = [] ∨ ∃ p r, s1.loop_mark_ = p :: r := by
    cases s1.loop_mark_ <;> simp
  rcases hcases with hnil | ⟨p, r, hpr⟩
  · rw [hnil] at hsucc; simp [pop_mark] at hsucc
  · refine ⟨p, r, hpr, ?_, ?_, ?_⟩
    · unfold matching_open; rw [ht, hpr]; rfl
    · have hch := open_marks_chain source _ _ ht
      rw [hpr] at hch
      exact hch.1
    · exact open_marks_lt source _ _ ht p (by rw [hpr]; simp)

/-- Witness of C17: the nested source `+[[-]]`, from a fresh one-cell interpreter, after
four evaluations of the loop: the inner `]` at index 4 is about to be executed and the
loop stack is `[2, 1]`. -/
theorem C17_bracket_invariant_witness :
    brackets_matched ['+', '[', '[', '-', ']', ']'] ∧
    (BrainFuck.new 1 false []).loop_mark_ = [] ∧
    parse_state ['+', '[', '[', '-', ']', ']'] 4
        { BrainFuck.new 1 false [] with source_index_ := 0 }
      = some { BrainFuck.new 1 false [] with loop_mark_ := [2, 1], source_index_ := 4 } ∧
    open_marks ['+', '[', '[', '-', ']', ']'] 4 = some [2, 1] ∧
    matching_open ['+', '[', '[', '-', ']', ']'] 4 = some 2 := by
  have h := C17_bracket_invariant ['+', '[', '[', '-', ']', ']'] (by decide)
    (BrainFuck.new 1 false []) (by decide) 4
    { BrainFuck.new 1 false [] with loop_mark_ := [2, 1], source_index_ := 4 } (by decide)
  exact ⟨by decide, by decide, by decide, h.1, by decide⟩

/-! ## C14: the trace does not influence the engine -/

/-- A handler run in two states with the same engine state returns, or faults, alike. -/
theorem handler_same_core {c : Char} {h : BrainFuck → Step}
    (hm : command_map_ c = some h) (a b : BrainFuck) (hab : same_core a b) :
    (∀ a1, h a = .ok a1 → ∃ b1, h b = .ok b1 ∧ same_core a1 b1) ∧
    (∀ f a1, h a = .error (f, a1) → ∃ b1, h b = .error (f, b1) ∧ same_core a1 b1) := by
  obtain ⟨st, cur, lm, pc, pch, dbg, fst, cin, cout⟩ := a
  obtain ⟨st1, cur1, lm1, pc1, pch1, dbg1, fst1, cin1, cout1⟩ := b
  simp only [same_core] at hab
  obtain ⟨rfl, rfl, rfl, rfl, rfl⟩ := hab
  unfold command_map_ at hm
  split_ifs at hm <;> cases hm
  · -- `>`
    constructor
    · intro a1 ha
      simp only [process_ref_add_, BrainFuck.stacksize_] at ha ⊢
      split at ha <;> rename_i hc <;> cases ha
      · rw [if_pos hc]; exact ⟨_, rfl, rfl, rfl, rfl, rfl, rfl⟩
      · rw [if_neg hc]; exact ⟨_, rfl, rfl, rfl, rfl, rfl, rfl⟩
    · intro f a1 ha
      simp only [process_ref_add_] at ha
      split at ha <;> cases ha
  · -- `<`
    constructor
    · intro a1 ha
      simp only [process_ref_sub_, BrainFuck.stacksize_] at ha ⊢
      split at ha <;> rename_i hc <;> cases ha
      · rw [if_pos hc]; exact ⟨_, rfl, rfl, rfl, rfl, rfl, rfl⟩
      · rw [if_neg hc]; exact ⟨_, rfl, rfl, rfl, rfl, rfl, rfl⟩
    · intro f a1 ha
      simp only [process_ref_sub_] at ha
      split at ha <;> cases ha
  · -- `+`
    cases hc : st[cur]? with
    | none =>
      constructor
      · intro a1 ha; simp [process_val_add_, hc] at ha
      · intro f a1 ha
        simp only [process_val_add_, hc] at ha ⊢
        cases ha; exact ⟨_, rfl, rfl, rfl, rfl, rfl, rfl⟩
    | some v =>
      constructor
      · intro a1 ha
        simp only [process_val_add_, hc] at ha ⊢
        cases ha; exact ⟨_, rfl, rfl, rfl, rfl, rfl, rfl⟩
      · intro f a1 ha; simp [process_val_add_, hc] at ha
  · -- `-`
    cases hc : st[cur]? with
    | none =>
      constructor
      · intro a1 ha; simp [process_val_sub_, hc] at ha
      · intro f a1 ha
        simp only [process_val_sub_, hc] at ha ⊢
        cases ha; exact ⟨_, rfl, rfl, rfl, rfl, rfl, rfl⟩
    | some v =>
      constructor
      · intro a1 ha
        simp only [process_val_sub_, hc] at ha ⊢
        cases ha; exact ⟨_, rfl, rfl, rfl, rfl, rfl, rfl⟩
      · intro f a1 ha; simp [process_val_sub_, hc] at ha
  · -- `.`
    cases hc : st[cur]? with
    | none =>
      constructor
      · intro a1 ha; simp [process_val_put_, hc] at ha
      · intro f a1 ha
        simp only [process_val_put_, hc] at ha ⊢
        cases ha; exact ⟨_, rfl, rfl, rfl, rfl, rfl, rfl⟩
    | some v =>
      constructor
      · intro a1 ha
        simp only [process_val_put_, hc] at ha ⊢
        cases dbg <;> cases dbg1 <;> cases ha <;> exact ⟨_, rfl, rfl, rfl, rfl, rfl, rfl⟩
      · intro f a1 ha
        simp only [process_val_put_, hc] at ha
        cases dbg <;> cases ha
  · -- `,`
    cases hk : stoi (cin.headD []) with
    | error g =>
      constructor
      · intro a1 ha; simp only [process_val_get_, hk] at ha; cases ha
      · intro f a1 ha
        simp only [process_val_get_, hk] at ha ⊢
        cases ha; exact ⟨_, rfl, rfl, rfl, rfl, rfl, rfl⟩
    | ok k =>
      cases hc : st[cur]? with
      | none =>
        constructor
        · intro a1 ha; simp only [process_val_get_, hk, hc] at ha; cases ha
        · intro f a1 ha
          simp only [process_val_get_, hk, hc] at ha ⊢
          cases ha; exact ⟨_, rfl, rfl, rfl, rfl, rfl, rfl⟩
      | some v =>
        constructor
        · intro a1 ha
          simp only [process_val_get_, hk, hc] at ha ⊢
          cases ha; exact ⟨_, rfl, rfl, rfl, rfl, rfl, rfl⟩
        · intro f a1 ha; simp only [process_val_get_, hk, hc] at ha; cases ha
  · -- `[`
    constructor
    · intro a1 ha
      cases ha
      exact ⟨_, rfl, rfl, rfl, rfl, rfl, rfl⟩
    · intro f a1 ha
      cases ha
  · -- `]`
    cases hc : st[cur]? with
    | none =>
      constructor
      · intro a1 ha; simp [process_loop_end_, hc] at ha
      · intro f a1 ha
        simp only [process_loop_end_, hc] at ha ⊢
        cases ha; exact ⟨_, rfl, rfl, rfl, rfl, rfl, rfl⟩
    | some v =>
      by_cases hv : v = 0 <;> cases lm with
      | nil =>
        constructor
        · intro a1 ha; simp [process_loop_end_, hc, hv] at ha
        · intro f a1 ha
          simp only [process_loop_end_, hc, hv, ne_eq, not_true_eq_false, not_false_eq_true,
            if_true, if_false] at ha ⊢
          cases ha; exact ⟨_, rfl, rfl, rfl, rfl, rfl, rfl⟩
      | cons p r =>
        constructor
        · intro a1 ha
          simp only [process_loop_end_, hc, hv, ne_eq, not_true_eq_false, not_false_eq_true,
            if_true, if_false] at ha ⊢
          cases ha; exact ⟨_, rfl, rfl, rfl, rfl, rfl, rfl⟩
        · intro f a1 ha; simp [process_loop_end_, hc, hv] at ha

theorem trace_and_advance_cin (token : Char) (s : BrainFuck) :
    (trace_and_advance token s).cin = s.cin := by
  unfold trace_and_advance
  cases h : s.should_print_stack_ <;> simp [h, print_stack_]

theorem trace_and_advance_same_core (token : Char) {a b : BrainFuck} (h : same_core a b) :
    same_core (trace_and_advance token a) (trace_and_advance token b) := by
  obtain ⟨h1, h2, h3, h4, h5⟩ := h
  refine ⟨?_, ?_, ?_, ?_, ?_⟩
  · rw [trace_and_advance_stack, trace_and_advance_stack, h1]
  · rw [trace_and_advance_current, trace_and_advance_current, h2]
  · rw [trace_and_advance_lm, trace_and_advance_lm, h3]
  · rw [trace_and_advance_pc, trace_and_advance_pc, h4]
  · rw [trace_and_advance_cin, trace_and_advance_cin, h5]

/-- One evaluation of the loop of `parse` in two states with the same engine state goes
the same way and leads to states with the same engine state. -/
theorem parse_iter_same_core (source : List Char) {a b : BrainFuck} (hab : same_core a b) :
    (∀ a1, parse_iter source a = .again a1 →
      ∃ b1, parse_iter source b = .again b1 ∧ same_core a1 b1) ∧
    (∀ a1, parse_iter source a = .finished a1 →
      ∃ b1, parse_iter source b = .finished b1 ∧ same_core a1 b1) ∧
    (∀ f a1, parse_iter source a = .failed f a1 →
      ∃ b1, parse_iter source b = .failed f b1 ∧ same_core a1 b1) := by
  have hpc : a.source_index_ = b.source_index_ := hab.2.2.2.1
  rcases parse_iter_cases source a with
    ⟨hc, h1⟩ | ⟨c, hc, hm, h1⟩ | ⟨c, h, a2, hc, hm, hs, h1⟩ | ⟨c, h, f, a2, hc, hm, hs, h1⟩
  · rw [hpc] at hc
    refine ⟨?_, ?_, ?_⟩
    · intro a1 ha; rw [h1] at ha; cases ha
    · intro a1 ha; rw [h1] at ha; cases ha
      exact ⟨b, parse_iter_end hc, hab⟩
    · intro f a1 ha; rw [h1] at ha; cases ha
  · rw [hpc] at hc
    refine ⟨?_, ?_, ?_⟩
    · intro a1 ha; rw [h1] at ha; cases ha
      refine ⟨_, parse_iter_skip hc hm, hab.1, hab.2.1, hab.2.2.1, ?_, hab.2.2.2.2⟩
      show a.source_index_ + 1 = b.source_index_ + 1
      rw [hpc]
    · intro a1 ha; rw [h1] at ha; cases ha
    · intro f a1 ha; rw [h1] at ha; cases ha
  · rw [hpc] at hc
    obtain ⟨b2, hb2, hab2⟩ := (handler_same_core hm a b hab).1 a2 hs
    refine ⟨?_, ?_, ?_⟩
    · intro a1 ha; rw [h1] at ha; cases ha
      exact ⟨_, parse_iter_ok_eq hc hm hb2, trace_and_advance_same_core c hab2⟩
    · intro a1 ha; rw [h1] at ha; cases ha
    · intro f1 a1 ha; rw [h1] at ha; cases ha
  · rw [hpc] at hc
    obtain ⟨b2, hb2, hab2⟩ := (handler_same_core hm a b hab).2 f a2 hs
    refine ⟨?_, ?_, ?_⟩
    · intro a1 ha; rw [h1] at ha; cases ha
    · intro a1 ha; rw [h1] at ha; cases ha
    · intro f1 a1 ha; rw [h1] at ha; cases ha
      exact ⟨_, parse_iter_error hc hm hb2, hab2⟩

theorem parse_loop_same_core (source : List Char) :
    ∀ (fuel : Nat) (a b : BrainFuck), same_core a b →
      Outcome.same_core (parse_loop source fuel a) (parse_loop source fuel b) := by
  intro fuel
  induction fuel with
  | zero => intro a b _; trivial
  | succ fuel ih =>
    intro a b hab
    obtain ⟨hag, hfi, hfa⟩ := parse_iter_same_core source hab
    cases hi : parse_iter source a with
    | again a1 =>
      obtain ⟨b1, hb1, h1⟩ := hag a1 hi
      rw [parse_loop_again hi, parse_loop_again hb1]
      exact ih a1 b1 h1
    | finished a1 =>
      obtain ⟨b1, hb1, h1⟩ := hfi a1 hi
      rw [parse_loop_finished hi, parse_loop_finished hb1]
      exact h1
    | failed f a1 =>
      obtain ⟨b1, hb1, h1⟩ := hfa f a1 hi
      rw [parse_loop_failed hi, parse_loop_failed hb1]
      exact ⟨rfl, h1⟩

/-- C14: for every source, every initial state (its pending input included) and every
amount of fuel, `parse` with the trace enabled and `parse` with it disabled end in the
same way (both return, both fault alike, or both are still running) with the same tape,
cursor, loop stack, program counter and remaining input. -/
theorem C14_trace_is_observational (source : List Char) (s : BrainFuck) (fuel : Nat) :
    Outcome.same_core (parse source fuel { s with should_print_stack_ := true })
      (parse source fuel { s with should_print_stack_ := false }) :=
  parse_loop_same_core source fuel _ _ ⟨rfl, rfl, rfl, rfl, rfl⟩

/-! ## C11 and C12: the input command -/

theorem digit_char (d : Nat) (h : d < 10) :
    (Char.ofNat (48 + d)).isDigit = true ∧ (Char.ofNat (48 + d)).toNat - 48 = d ∧
    isspace (Char.ofNat (48 + d)) = false ∧ Char.ofNat (48 + d) ≠ '-' ∧
    Char.ofNat (48 + d) ≠ '+' := by
  interval_cases d <;> decide

theorem digits_value_append (xs : List Char) (d : Char) :
    digits_value (xs ++ [d]) = 10 * digits_value xs + (d.toNat - 48) := by
  simp [digits_value, List.foldl_append]

theorem decimal_digits_spec (fuel : Nat) :
    ∀ n, n < fuel →
      (∃ c cs, decimal_digits fuel n = c :: cs ∧ c.isDigit = true ∧ isspace c = false ∧
        c ≠ '-' ∧ c ≠ '+') ∧
      (∀ c ∈ decimal_digits fuel n, c.isDigit = true) ∧
      digits_value (decimal_digits fuel n) = n := by
  induction fuel with
  | zero => intro n h; omega
  | succ fuel ih =>
    intro n hn
    by_cases h10 : n < 10
    · obtain ⟨h1, h2, h3, h4, h5⟩ := digit_char n h10
      have e : decimal_digits (fuel + 1) n = [Char.ofNat (48 + n)] := by
        simp [decimal_digits, h10]
      rw [e]
      refine ⟨⟨_, [], rfl, h1, h3, h4, h5⟩, ?_, ?_⟩
      · intro c hc
        rw [List.mem_singleton] at hc
        rw [hc]; exact h1
      · simp [digits_value, h2]
    · obtain ⟨h1, h2, _, _, _⟩ := digit_char (n % 10) (Nat.mod_lt _ (by decide))
      have e : decimal_digits (fuel + 1) n
          = decimal_digits fuel (n / 10) ++ [Char.ofNat (48 + n % 10)] := by
        simp [decimal_digits, h10]
      obtain ⟨⟨c, cs, hcs, hc1, hc2, hc3, hc4⟩, hall, hval⟩ := ih (n / 10) (by omega)
      rw [e]
      refine ⟨⟨c, cs ++ [Char.ofNat (48 + n % 10)], by rw [hcs]; rfl, hc1, hc2, hc3, hc4⟩,
        ?_, ?_⟩
      · intro x hx
        rcases List.mem_append.mp hx with hx | hx
        · exact hall x hx
        · rw [List.mem_singleton] at hx
          rw [hx]; exact h1
      · rw [digits_value_append, hval, h2]
        omega

/-- What `std::stoi` returns on an unsigned run of digits that fits an `int`. -/
theorem stoi_digits (c : Char) (cs : List Char)
    (hsp : isspace c = false) (hm : c ≠ '-') (hp : c ≠ '+')
    (hall : ∀ x ∈ c :: cs, x.isDigit = true) (hr : digits_value (c :: cs) ≤ 2147483647) :
    stoi (c :: cs) = .ok (digits_value (c :: cs) : Int) := by
  have htake : (c :: cs).takeWhile Char.isDigit = c :: cs :=
    List.takeWhile_eq_self_iff.mpr hall
  have hdrop : (c :: cs).dropWhile isspace = c :: cs := by
    simp [List.dropWhile, hsp]
  unfold stoi
  simp only [hdrop, List.head?_cons, Option.some.injEq, hm, hp, or_self, if_false, htake]
  have hr' : ¬ ((digits_value (c :: cs) : Int) < -2147483648 ∨
      2147483647 < (digits_value (c :: cs) : Int)) := by omega
  rw [if_neg (List.cons_ne_nil _ _)]
  exact if_neg hr'

/-- What `std::stoi` returns on a minus sign followed by a run of digits that fits an
`int`. -/
theorem stoi_minus_digits (ds : List Char) (hne : ds ≠ [])
    (hall : ∀ x ∈ ds, x.isDigit = true) (hr : digits_value ds ≤ 2147483648) :
    stoi ('-' :: ds) = .ok (-(digits_value ds : Int)) := by
  have htake : ds.takeWhile Char.isDigit = ds := List.takeWhile_eq_self_iff.mpr hall
  have hdrop : ('-' :: ds).dropWhile isspace = '-' :: ds := by
    simp [List.dropWhile, isspace]
  unfold stoi
  simp only [hdrop, List.head?_cons, true_or, if_true, List.tail_cons, htake]
  have hr' : ¬ (-(digits_value ds : Int) < -2147483648 ∨
      2147483647 < -(digits_value ds : Int)) := by omega
  rw [if_neg hne]
  exact if_neg hr'

/-- The numeral of an `int` is read back by `std::stoi`. -/
theorem stoi_decimal (k : Int) (hlo : -2147483648 ≤ k) (hhi : k ≤ 2147483647) :
    stoi (decimal k) = .ok k := by
  obtain ⟨⟨c, cs, hcs, hc1, hc2, hc3, hc4⟩, hall, hval⟩ :=
    decimal_digits_spec (k.natAbs + 1) k.natAbs (by omega)
  by_cases hneg : k < 0
  · have e : decimal k = '-' :: decimal_digits (k.natAbs + 1) k.natAbs := by
      simp [decimal, decimal_nat, hneg]
    rw [e, stoi_minus_digits _ (by rw [hcs]; simp) hall (by rw [hval]; omega), hval]
    congr 1
    omega
  · have e : decimal k = c :: cs := by
      simp [decimal, decimal_nat, hneg, hcs]
    rw [hcs] at hall hval
    rw [e, stoi_digits c cs hc2 hc3 hc4 hall (by rw [hval]; omega), hval]
    congr 1
    omega

theorem command_map_comma : command_map_ ',' = some process_val_get_ := by
  simp [command_map_]

/-- C11, as stated, fails for an integer that does not fit a 32-bit `int`: on the input
`2147483649` the call of `std::stoi` throws `std::out_of_range`, the `,` does not
return, and the cell keeps its value 0 instead of receiving `2147483649 mod 256 = 1`. -/
theorem C11_counterexample :
    decimal 2147483649 = ['2', '1', '4', '7', '4', '8', '3', '6', '4', '9'] ∧
    (2147483649 : Int) % 256 = 1 ∧
    process_val_get_ (BrainFuck.new 1 false [decimal 2147483649])
      = .error (.out_of_range, BrainFuck.new 1 false []) ∧
    (BrainFuck.new 1 false []).stack_ = [0] ∧
    parse [','] 2 (BrainFuck.new 1 false [decimal 2147483649])
      = .fault .out_of_range (BrainFuck.new 1 false []) := by
  decide

/-- C11, amended: for every integer `k` that fits a 32-bit `int` (negative `k` and
`k ≥ 256` included), supplied as its decimal numeral, `,` executed with the cursor on a
cell consumes the numeral, stores `k mod 256` (a value in `0 .. 255`, the low 8 bits of
`k`) in that cell and changes nothing else: cursor, loop stack, program counter, other
cells, output. -/
theorem C11_input_is_truncated (s : BrainFuck) (k : Int)
    (hlo : -2147483648 ≤ k) (hhi : k ≤ 2147483647) (rest : List (List Char)) (v : Nat)
    (hcin : s.cin = decimal k :: rest) (hcell : s.stack_[s.current_]? = some v) :
    process_val_get_ s
      = .ok { s with cin := rest, stack_ := s.stack_.set s.current_ (k % 256).toNat } ∧
    ((k % 256).toNat : Int) = k % 256 ∧ (k % 256).toNat < 256 ∧
    (∀ i, i ≠ s.current_ → (s.stack_.set s.current_ (k % 256).toNat)[i]? = s.stack_[i]?) := by
  refine ⟨?_, by omega, by omega, ?_⟩
  · have h1 : stoi (s.cin.headD []) = .ok k := by
      rw [hcin]; exact stoi_decimal k hlo hhi
    simp only [process_val_get_, h1, hcell]
    rw [hcin]; rfl
  · intro i hi
    exact List.getElem?_set_ne (Ne.symm hi)

/-- Witness of C11 (amended): the input `-3` on a fresh one-cell interpreter stores
253. -/
theorem C11_input_is_truncated_witness :
    (-2147483648 : Int) ≤ -3 ∧ (-3 : Int) ≤ 2147483647 ∧
    (BrainFuck.new 1 false [decimal (-3)]).cin = decimal (-3) :: [] ∧
    (BrainFuck.new 1 false [decimal (-3)]).stack_[
      (BrainFuck.new 1 false [decimal (-3)]).current_]? = some 0 ∧
    decimal (-3) = ['-', '3'] ∧ ((-3 : Int) % 256).toNat = 253 ∧
    process_val_get_ (BrainFuck.new 1 false [decimal (-3)])
      = .ok { BrainFuck.new 1 false [decimal (-3)] with
          cin := [],
          stack_ := (BrainFuck.new 1 false [decimal (-3)]).stack_.set
            (BrainFuck.new 1 false [decimal (-3)]).current_ ((-3 : Int) % 256).toNat } :=
  ⟨by decide, by decide, by decide, by decide, by decide, by decide,
    (C11_input_is_truncated (BrainFuck.new 1 false [decimal (-3)]) (-3) (by decide)
      (by decide) [] 0 (by decide) (by decide)).1⟩

/-- The handler of `,` when `std::stoi` throws: the exception leaves `parse`, and only
the token has been consumed. -/
theorem val_get_of_stoi_error (source : List Char) (s : BrainFuck) (f : Fault)
    (htok : source[s.source_index_]? = some ',')
    (hbad : stoi (s.cin.headD []) = .error f) (fuel : Nat) :
    process_val_get_ s = .error (f, { s with cin := s.cin.tail }) ∧
    parse_iter source s = .failed f { s with cin := s.cin.tail } ∧
    parse_loop source (fuel + 1) s = .fault f { s with cin := s.cin.tail } := by
  have h1 : process_val_get_ s = .error (f, { s with cin := s.cin.tail }) := by
    simp only [process_val_get_, hbad]
  have h2 := parse_iter_error htok command_map_comma h1
  exact ⟨h1, h2, parse_loop_failed h2 fuel⟩

theorem takeWhile_nil_of_head {p : Char → Bool} :
    ∀ (l : List Char), (∀ c rest, l = c :: rest → p c = false) → l.takeWhile p = []
  | [], _ => rfl
  | c :: rest, h => by simp [List.takeWhile, h c rest rfl]

/-- A token that does not begin with a numeral makes `std::stoi` throw
`std::invalid_argument`. -/
theorem stoi_no_numeral (token : List Char) (h : starts_with_numeral token = false) :
    stoi token = .error .invalid_argument := by
  unfold starts_with_numeral at h
  unfold stoi
  cases hb : token.dropWhile isspace with
  | nil => simp
  | cons c rest =>
    rw [hb] at h
    simp only at h
    by_cases hsign : c = '-' ∨ c = '+'
    · rw [if_pos hsign] at h
      have hhead : (some c = some '-' ∨ some c = some '+') := by
        rcases hsign with h1 | h1
        · exact Or.inl (by rw [h1])
        · exact Or.inr (by rw [h1])
      have htake : rest.takeWhile Char.isDigit = [] := by
        apply takeWhile_nil_of_head
        intro d rest1 hr
        rw [hr] at h
        exact h
      simp only [List.head?_cons, List.tail_cons, if_pos hhead, htake, if_true]
    · rw [if_neg hsign] at h
      have hhead : ¬ (some c = some '-' ∨ some c = some '+') := by
        intro h1
        apply hsign
        rcases h1 with h1 | h1
        · exact Or.inl (Option.some.inj h1)
        · exact Or.inr (Option.some.inj h1)
      have htake : (c :: rest).takeWhile Char.isDigit = [] := by
        apply takeWhile_nil_of_head
        intro d rest1 hr
        cases hr
        exact h
      simp only [List.head?_cons, if_neg hhead, htake, if_true]

theorem isDigit_bounds (c : Char) (h : c.isDigit = true) :
    48 ≤ c.toNat ∧ c.toNat ≤ 57 := by
  simp only [Char.isDigit, Bool.and_eq_true, decide_eq_true_eq] at h
  obtain ⟨h1, h2⟩ := h
  have h1' : (48 : UInt32).toNat ≤ c.val.toNat := h1
  have h2' : c.val.toNat ≤ (57 : UInt32).toNat := h2
  exact ⟨h1', h2'⟩

theorem isDigit_not_sign (c : Char) (h : c.isDigit = true) : c ≠ '-' ∧ c ≠ '+' := by
  have := isDigit_bounds c h
  constructor
  · intro e; rw [e] at this; revert this; decide
  · intro e; rw [e] at this; revert this; decide

theorem isDigit_not_space (c : Char) (h : c.isDigit = true) : isspace c = false := by
  have := isDigit_bounds c h
  simp only [isspace, Bool.or_eq_false_iff, Bool.and_eq_false_iff, decide_eq_false_iff_not]
  omega

theorem takeWhile_append_junk {p : Char → Bool} (junk : List Char)
    (hjunk : ∀ c rest, junk = c :: rest → p c = false) :
    ∀ (ds : List Char), (∀ c ∈ ds, p c = true) → (ds ++ junk).takeWhile p = ds
  | [], _ => takeWhile_nil_of_head junk hjunk
  | d :: ds, h => by
    have hd : p d = true := h d (List.mem_cons_self _ _)
    have ih := takeWhile_append_junk junk hjunk ds
      (fun c hc => h c (List.mem_cons_of_mem _ hc))
    simp [List.takeWhile, hd, ih]

theorem dropWhile_append_spaces (rest : List Char) :
    ∀ (ws : List Char), (∀ c ∈ ws, isspace c = true) →
      (ws ++ rest).dropWhile isspace = rest.dropWhile isspace
  | [], _ => rfl
  | w :: ws, h => by
    have hw : isspace w = true := h w (List.mem_cons_self _ _)
    have ih := dropWhile_append_spaces rest ws (fun c hc => h c (List.mem_cons_of_mem _ hc))
    simp [List.dropWhile, hw, ih]

/-- Leading white space does not change what `std::stoi` returns. -/
theorem stoi_skip_spaces (ws rest : List Char) (h : ∀ c ∈ ws, isspace c = true) :
    stoi (ws ++ rest) = stoi rest := by
  unfold stoi
  rw [dropWhile_append_spaces rest ws h]

/-- What `std::stoi` returns on a run of digits followed by something that is not a
digit. -/
theorem stoi_digits_junk (d : Char) (ds junk : List Char)
    (hall : ∀ x ∈ d :: ds, x.isDigit = true)
    (hjunk : ∀ c rest, junk = c :: rest → c.isDigit = false) :
    stoi ((d :: ds) ++ junk)
      = if (digits_value (d :: ds) : Int) < -2147483648 ∨
          2147483647 < (digits_value (d :: ds) : Int)
        then .error .out_of_range else .ok (digits_value (d :: ds) : Int) := by
  have hd : d.isDigit = true := hall d (List.mem_cons_self _ _)
  obtain ⟨hm, hp⟩ := isDigit_not_sign d hd
  have hsp := isDigit_not_space d hd
  have htake : (d :: (ds ++ junk)).takeWhile Char.isDigit = d :: ds :=
    takeWhile_append_junk junk hjunk (d :: ds) hall
  have hdrop : (d :: (ds ++ junk)).dropWhile isspace = d :: (ds ++ junk) := by
    simp [List.dropWhile, hsp]
  unfold stoi
  simp only [List.cons_append, hdrop, List.head?_cons, Option.some.injEq, hm, hp, or_self,
    if_false, htake]
  rw [if_neg (List.cons_ne_nil _ _)]
  rfl

/-- What `std::stoi` returns on a plus sign, a run of digits and something that is not a
digit. -/
theorem stoi_plus_digits_junk (ds junk : List Char) (hne : ds ≠ [])
    (hall : ∀ x ∈ ds, x.isDigit = true)
    (hjunk : ∀ c rest, junk = c :: rest → c.isDigit = false) :
    stoi ('+' :: (ds ++ junk))
      = if (digits_value ds : Int) < -2147483648 ∨ 2147483647 < (digits_value ds : Int)
        then .error .out_of_range else .ok (digits_value ds : Int) := by
  have htake : (ds ++ junk).takeWhile Char.isDigit = ds :=
    takeWhile_append_junk junk hjunk ds hall
  have hdrop : ('+' :: (ds ++ junk)).dropWhile isspace = '+' :: (ds ++ junk) := by
    simp [List.dropWhile, isspace]
  unfold stoi
  simp only [hdrop, List.head?_cons, or_true, if_true, List.tail_cons, htake]
  rw [if_neg hne]
  have hneg : ¬ (some '+' = some '-') := by decide
  simp only [hneg, decide_False, Bool.false_eq_true, if_false]
  rfl

/-- What `std::stoi` returns on a minus sign, a run of digits and something that is not a
digit. -/
theorem stoi_minus_digits_junk (ds junk : List Char) (hne : ds ≠ [])
    (hall : ∀ x ∈ ds, x.isDigit = true)
    (hjunk : ∀ c rest, junk = c :: rest → c.isDigit = false) :
    stoi ('-' :: (ds ++ junk))
      = if -(digits_value ds : Int) < -2147483648 ∨ 2147483647 < -(digits_value ds : Int)
        then .error .out_of_range else .ok (-(digits_value ds : Int)) := by
  have htake : (ds ++ junk).takeWhile Char.isDigit = ds :=
    takeWhile_append_junk junk hjunk ds hall
  have hdrop : ('-' :: (ds ++ junk)).dropWhile isspace = '-' :: (ds ++ junk) := by
    simp [List.dropWhile, isspace]
  unfold stoi
  simp only [hdrop, List.head?_cons, true_or, if_true, List.tail_cons, htake]
  rw [if_neg hne]
  rfl

/-- What `std::stoi` returns on a token that begins with the numeral of `k`: the range
check of `int` decides. -/
theorem stoi_leading_numeral (token : List Char) (k : Int) (h : leading_numeral_is token k) :
    stoi token
      = if k < -2147483648 ∨ 2147483647 < k then .error .out_of_range else .ok k := by
  obtain ⟨ws, sign, ds, junk, rfl, hws, hsign, hne, hds, hjunk⟩ := h
  rw [stoi_skip_spaces ws _ hws]
  rcases hsign with ⟨rfl, rfl⟩ | ⟨rfl, rfl⟩ | ⟨rfl, rfl⟩
  · obtain ⟨d, ds1, rfl⟩ : ∃ d ds1, ds = d :: ds1 := by
      cases ds with
      | nil => exact absurd rfl hne
      | cons d ds1 => exact ⟨d, ds1, rfl⟩
    exact stoi_digits_junk d ds1 junk hds hjunk
  · exact stoi_plus_digits_junk ds junk hne hds hjunk
  · exact stoi_minus_digits_junk ds junk hne hds hjunk

/-- C12, as stated, fails: an input that begins with a numeral is accepted although it is
not an integer.  On `12abc` the `,` returns and stores 12, on `3.7` it stores 3 and on
`0x1f` it stores 0 (over a cell that held 9); no error is raised. -/
theorem C12_counterexample :
    stoi "12abc".toList = .ok 12 ∧ stoi "3.7".toList = .ok 3 ∧ stoi "0x1f".toList = .ok 0 ∧
    parse [','] 2 (BrainFuck.new 1 false ["12abc".toList])
      = .returned { BrainFuck.new 1 false [] with stack_ := [12], source_index_ := 1 } ∧
    parse [','] 2 (BrainFuck.new 1 false ["3.7".toList])
      = .returned { BrainFuck.new 1 false [] with stack_ := [3], source_index_ := 1 } ∧
    parse [','] 2 { BrainFuck.new 1 false ["0x1f".toList] with stack_ := [9] }
      = .returned { BrainFuck.new 1 false [] with stack_ := [0], source_index_ := 1 } := by
  decide

/-- C12, amended: let the token that `,` reads (the empty string at end of input) either
not begin, after optional white space and an optional sign, with a decimal digit, or
begin with the numeral of an integer outside the range of a 32-bit `int`.  Then the
handler throws (`std::invalid_argument` in the first case, `std::out_of_range` in the
second), the exception is the outcome of `parse`, and the state at that point is the
state before the `,` with only the token consumed: tape, cursor, loop stack, program
counter and output are exactly as they were. -/
theorem C12_bad_input_fails (source : List Char) (s : BrainFuck)
    (htok : source[s.source_index_]? = some ',')
    (hbad : starts_with_numeral (s.cin.headD []) = false ∨
      ∃ k : Int, leading_numeral_is (s.cin.headD []) k ∧
        (k < -2147483648 ∨ 2147483647 < k))
    (fuel : Nat) :
    ∃ f, f.is_exception = true ∧
      (starts_with_numeral (s.cin.headD []) = false → f = .invalid_argument) ∧
      ((∃ k : Int, leading_numeral_is (s.cin.headD []) k) → f = .out_of_range) ∧
      process_val_get_ s = .error (f, { s with cin := s.cin.tail }) ∧
      parse_iter source s = .failed f { s with cin := s.cin.tail } ∧
      parse_loop source (fuel + 1) s = .fault f { s with cin := s.cin.tail } ∧
      ({ s with cin := s.cin.tail } : BrainFuck).stack_ = s.stack_ ∧
      ({ s with cin := s.cin.tail } : BrainFuck).current_ = s.current_ ∧
      ({ s with cin := s.cin.tail } : BrainFuck).loop_mark_ = s.loop_mark_ ∧
      ({ s with cin := s.cin.tail } : BrainFuck).source_index_ = s.source_index_ ∧
      ({ s with cin := s.cin.tail } : BrainFuck).cout = s.cout := by
  by_cases hn : starts_with_numeral (s.cin.headD []) = false
  · have hs := stoi_no_numeral _ hn
    obtain ⟨h1, h2, h3⟩ := val_get_of_stoi_error source s .invalid_argument htok hs fuel
    refine ⟨.invalid_argument, rfl, fun _ => rfl, ?_, h1, h2, h3, rfl, rfl, rfl, rfl, rfl⟩
    rintro ⟨k, hk⟩
    have hs2 := stoi_leading_numeral _ k hk
    rw [hs] at hs2
    split_ifs at hs2
    cases hs2
  · rcases hbad with hb | ⟨k, hk, hr⟩
    · exact absurd hb hn
    · have hs : stoi (s.cin.headD []) = .error .out_of_range := by
        rw [stoi_leading_numeral _ k hk, if_pos hr]
      obtain ⟨h1, h2, h3⟩ := val_get_of_stoi_error source s .out_of_range htok hs fuel
      exact ⟨.out_of_range, rfl, fun h => absurd h hn, fun _ => rfl, h1, h2, h3,
        rfl, rfl, rfl, rfl, rfl⟩

/-- Witness of C12 (amended): the input `abc` on a fresh one-cell interpreter
running `,`. -/
theorem C12_bad_input_fails_witness :
    [','][(BrainFuck.new 1 false ["abc".toList]).source_index_]? = some ',' ∧
    starts_with_numeral ((BrainFuck.new 1 false ["abc".toList]).cin.headD []) = false ∧
    ∃ f, f.is_exception = true ∧
      parse_loop [','] 1 (BrainFuck.new 1 false ["abc".toList])
        = .fault f (BrainFuck.new 1 false []) := by
  refine ⟨by decide, by decide, ?_⟩
  obtain ⟨f, h1, _, _, _, _, h2, _⟩ :=
    C12_bad_input_fails [','] (BrainFuck.new 1 false ["abc".toList]) (by decide)
      (Or.inl (by decide)) 0
  exact ⟨f, h1, h2⟩

/-! ## C15: the help option -/

theorem parse_params_from_help_here (argv0 : List Char) (i : Nat) (help : List Char)
    (post : List (List Char)) (params : Params) (hh : is_help help) :
    parse_params_from argv0 i (help :: post) params = .exited 0 (usage argv0) := by
  rcases hh with rfl | rfl
  · unfold parse_params_from
    rw [if_neg (by decide), if_neg (by decide), if_neg (by decide), if_neg (by decide),
      if_pos (by decide)]
  · unfold parse_params_from
    rw [if_neg (by decide), if_neg (by decide), if_neg (by decide), if_neg (by decide),
      if_pos (by decide)]

theorem parse_params_from_help (argv0 : List Char) (help : List Char)
    (post : List (List Char)) (hh : is_help help) (n : Nat) :
    ∀ (pre : List (List Char)), pre.length ≤ n → ∀ (i : Nat) (params params1 : Params),
      parse_params_from argv0 i pre params = .returned params1 →
      parse_params_from argv0 i (pre ++ help :: post) params = .exited 0 (usage argv0) := by
  induction n with
  | zero =>
    intro pre hlen i params params1 _
    have : pre = [] := List.length_eq_zero.mp (by omega)
    subst this
    exact parse_params_from_help_here argv0 i help post params hh
  | succ n ih =>
    intro pre hlen i params params1 hpre
    cases pre with
    | nil => exact parse_params_from_help_here argv0 i help post params hh
    | cons arg rest =>
      rw [List.cons_append]
      unfold parse_params_from at hpre ⊢
      simp only [List.length_cons] at hlen
      split_ifs at hpre ⊢
      · -- `-s`
        cases rest with
        | nil => cases hpre
        | cons value rest1 =>
          simp only [List.cons_append]
          simp only [List.length_cons] at hlen
          cases hst : stoull value with
          | error f => simp only [hst] at hpre; cases hpre
          | ok m =>
            simp only [hst] at hpre ⊢
            exact ih rest1 (by omega) _ _ _ hpre
      · -- `-f`
        cases rest with
        | nil => cases hpre
        | cons value rest1 =>
          simp only [List.cons_append]
          simp only [List.length_cons] at hlen
          exact ih rest1 (by omega) _ _ _ hpre
      · exact ih rest (by omega) _ _ _ hpre
      · exact ih rest (by omega) _ _ _ hpre
      · exact ih rest (by omega) _ _ _ hpre
      · exact ih rest (by omega) _ _ _ hpre

/-- C15, as stated, fails: the arguments are scanned from left to right and `-h` only acts
when the scan reaches it.  With `-s abc -h` the call `std::stoull("abc")` throws before
`-h` is seen, and with `-f -h` the `-h` is taken as the file name and `parse_params`
returns; no usage text is printed in either case. -/
theorem C15_counterexample :
    is_help "-h".toList ∧
    parse_params "bf".toList ["-s".toList, "abc".toList, "-h".toList]
      = .thrown .invalid_argument ∧
    parse_params "bf".toList ["-f".toList, "-h".toList]
      = .returned { Params.initial with source_file := "-h".toList } := by
  decide

/-- C15, amended: `parse_params` scans the arguments from left to right.  If the
arguments before a `-h` or `--help` are an argument list that `parse_params` accepts on
its own (it returns on them: every `-s`/`--stack` is followed by a number and every
`-f`/`--file` by a value, so the help option is not consumed as a value), then
`parse_params` prints the usage text and exits with status 0, whatever follows the help
option. -/
theorem C15_help_exits_when_reached (argv0 : List Char) (pre post : List (List Char))
    (help : List Char) (params1 : Params) (hh : is_help help)
    (hpre : parse_params argv0 pre = .returned params1) :
    parse_params argv0 (pre ++ help :: post) = .exited 0 (usage argv0) :=
  parse_params_from_help argv0 help post hh pre.length pre (Nat.le_refl _) 1
    Params.initial params1 hpre

/-- Witness of C15 (amended): `-s 32 x --help -s`, where a malformed `-s` follows the
help option. -/
theorem C15_help_exits_when_reached_witness :
    is_help "--help".toList ∧
    parse_params "bf".toList ["-s".toList, "32".toList, "x".toList]
      = .returned { Params.initial with stacksize := 32 } ∧
    parse_params "bf".toList
        (["-s".toList, "32".toList, "x".toList] ++ "--help".toList :: ["-s".toList])
      = .exited 0 (usage "bf".toList) :=
  ⟨by decide, by decide,
    C15_help_exits_when_reached "bf".toList ["-s".toList, "32".toList, "x".toList]
      ["-s".toList] "--help".toList { Params.initial with stacksize := 32 }
      (by decide) (by decide)⟩

end BF
